import Mathlib

/-!
Zeno: a shallow embedding of the item model, the crawl worker, the
post-processor, the Link header extractor, the HQ seencheck adapter and the
local queue, with the properties proved about them.

Conventions of the embedding.

* A Go `string` that the code takes apart (hosts, header values) is a
  `List Char`; a string that is only compared or stored is a `String`.
* A Go pointer `*Item` is an `Option Ptr`; `none` is `nil`. A heap maps every
  non-nil pointer to the item it points to.
* A Go slice is a `List`; a `nil` slice and an empty slice are both `[]`,
  except where the code tests a slice against `nil`, where it is an `Option`.
* A function that can dereference a nil pointer returns an `Option`; `none`
  is the run-time panic.
* A recursion or loop over pointers that need not end takes a fuel that
  bounds its depth and returns an `Except Fault`; the theorems give the fuel
  that is enough.

Definitions come first, theorems after them.
-/

set_option autoImplicit false

/-! ## Definitions -/

namespace models

/-- Go `int64` enumeration `ItemState` of `pkg/models/item.go`, in `iota`
order. -/
inductive ItemState where
  | ItemFresh
  | ItemPreProcessed
  | ItemArchived
  | ItemPostProcessed
  | ItemFailed
  | ItemCompleted
  | ItemGotRedirected
  | ItemGotChildren
  deriving DecidableEq, Repr, Inhabited

/-- Go `int64` enumeration `ItemSource` of `pkg/models/item.go`. -/
inductive ItemSource where
  | ItemSourceInsert
  | ItemSourceQueue
  | ItemSourceHQ
  | ItemSourcePostprocess
  | ItemSourceFeedback
  deriving DecidableEq, Repr, Inhabited

/-- A pointer to an item: an address in the heap. -/
abbrev Ptr := Nat

/-- A response body stream (`io.ReadCloser`): the bytes not read yet, and
whether reading the stream to its end fails. -/
structure Body where
  data : List Nat := []
  readErr : Bool := false
  deriving DecidableEq, Repr, Inhabited

/-- The HTTP response attached to a URL, as the code reads it: the status
code, the values `Header.Get` returns for the `Location`, `Content-Type` and
`link` keys (empty when the header is absent), and the body stream. -/
structure Response where
  StatusCode : Int := 0
  Location : List Char := []
  ContentType : List Char := []
  Link : List Char := []
  Body : Body := {}
  deriving DecidableEq, Repr, Inhabited

/-- The struct `models.URL`: the public fields `Raw`, `Hops` and `Redirects`
the code writes in its literals, and the response pointer behind
`GetResponse()` (nil when no response is attached). Go `int` values are
unbounded integers here; every sum the code forms is guarded, see
`postprocessor.postprocess`. -/
structure URL where
  Raw : List Char := []
  Hops : Int := 0
  Redirects : Int := 0
  response : Option Response := none
  deriving DecidableEq, Repr, Inhabited

/-- The type `models.URLType` of the URLs handled together: seed, redirection or asset. -/
inductive URLType where
  | URLTypeSeed
  | URLTypeRedirection
  | URLTypeAsset
  deriving DecidableEq, Repr, Inhabited

/-- The struct `Item` of `pkg/models/item.go`, field by field. `url` and
`parent` are pointers, `children` is a slice of pointers that may hold nil,
`err` is the error value (nil or a message). -/
structure Item where
  id : String
  url : Option URL
  seed : Bool
  seedVia : String
  status : ItemState
  source : ItemSource
  children : List (Option Ptr)
  parent : Option Ptr
  err : Option String
  deriving DecidableEq, Repr, Inhabited

/-- The heap: the item every non-nil pointer points to. -/
abbrev Heap := Ptr → Item

/-- `Item.CheckConsistency` (item.go, lines 63-90): the error of the first
violated constraint, or `none` for the nil error. The tests are those of the
source, in the source's order. -/
def Item.CheckConsistency (i : Item) : Option String :=
  -- The item should have a URL
  if i.url = none then
    some "url is nil"
  -- The item should have an ID
  else if i.id = "" then
    some "id is empty"
  -- If item is a child, it should have a parent
  else if !i.seed && i.parent = none then
    some "item is a child but has no parent"
  -- If item is a seed, it shouldnt have a parent
  else if i.seed && i.parent ≠ none then
    some "item is a seed but has a parent"
  -- If item is a child, it shouldnt have a seedVia
  else if !i.seed && i.seedVia ≠ "" then
    some "item is a child but has a seedVia"
  else
    none

/-- Invariant 4 of the data model at the item stored at `p`: when the item
has a parent, the parent's `children` slice holds the pointer `p`. -/
def parentHoldsChild (h : Heap) (p : Ptr) : Prop :=
  ∀ q, (h p).parent = some q → some p ∈ (h q).children

instance (h : Heap) (p : Ptr) : Decidable (parentHoldsChild h p) := by
  unfold parentHoldsChild
  cases hp : (h p).parent with
  | none => exact isTrue (fun q hq => by cases hq)
  | some q0 =>
    by_cases hm : some p ∈ (h q0).children
    · exact isTrue (fun q hq => by cases hq; exact hm)
    · exact isFalse (fun hall => hm (hall q0 rfl))

/-- A two-item heap: a seed at address 0 with an empty `children` slice, and
at address 1 (and everywhere else) a child whose parent pointer is 0. -/
def orphanHeap : Heap := fun p =>
  match p with
  | 0 => { id := "seed", url := some {}, seed := true, seedVia := "cli",
           status := .ItemFresh, source := .ItemSourceInsert,
           children := [], parent := none, err := none }
  | _ => { id := "child", url := some {}, seed := false, seedVia := "",
           status := .ItemFresh, source := .ItemSourceInsert,
           children := [], parent := some 0, err := none }

end models

namespace strings

/-- Go `strings.HasPrefix(s, prefix)`. -/
def HasPrefix : List Char → List Char → Bool
  | _, [] => true
  | [], _ :: _ => false
  | c :: s, d :: pre => c == d && HasPrefix s pre

/-- Go `strings.Contains(s, substr)`: whether `substr` is within `s`, tried
at every position of `s` from the left. -/
def Contains : List Char → List Char → Bool
  | [], substr => HasPrefix [] substr
  | c :: s, substr => HasPrefix (c :: s) substr || Contains s substr

end strings

namespace frontier

/-- The part of a parsed `url.URL` that `Crawl.Worker` reads: the host, and
the whole URL as a string. -/
structure URL where
  Host : List Char
  Raw : String
  deriving DecidableEq, Repr, Inhabited

/-- The struct `frontier.Item` as `Crawl.Worker` uses it: the URL, its host,
the hop count and the pointer to the parent item (nil for a seed). -/
inductive Item where
  | mk (URL : URL) (Host : List Char) (Hop : Nat) (ParentItem : Option Item)
  deriving Repr, Inhabited

/-- Field `URL` of a frontier item. -/
def Item.URL : Item → URL
  | .mk u _ _ _ => u

/-- Field `Host` of a frontier item. -/
def Item.Host : Item → List Char
  | .mk _ h _ _ => h

/-- Field `Hop` of a frontier item. -/
def Item.Hop : Item → Nat
  | .mk _ _ n _ => n

/-- Field `ParentItem` of a frontier item. -/
def Item.ParentItem : Item → Option Item
  | .mk _ _ _ p => p

/-- Modelled from the spec: `frontier.NewItem(URL, parentItem, hop)` is not in
the sources at hand. Per the spec's construct-child, the new item holds the
given URL, that URL's host, the given hop and the parent back-reference. -/
def NewItem (URL : URL) (parentItem : Item) (hop : Nat) : Item :=
  .mk URL URL.Host hop (some parentItem)

end frontier

namespace crawl

/-- The fields of `Crawl` that `Worker` consults. -/
structure Crawl where
  MaxHops : Nat
  DomainsCrawl : Bool
  UseKafka : Bool
  KafkaOutlinksTopic : List Char
  deriving DecidableEq, Repr, Inhabited

/-- The two channels `Worker` sends new items on. -/
inductive Chan where
  | KafkaProducerChannel
  | PushChan
  deriving DecidableEq, Repr, Inhabited

/-- The body of the loop `for _, outlink := range outlinks` of `Crawl.Worker`
(worker.go, lines 24-41): one send per outlink, in order. The hop counts are
unbounded naturals; the increment `item.Hop+1` is only reached under the guard
`item.Hop < c.MaxHops`, so it cannot wrap in a fixed-width type that holds
`MaxHops`. -/
def Worker.sendOutlinks (c : Crawl) (item : frontier.Item) :
    List frontier.URL → List (Chan × frontier.Item)
  | [] => []
  | outlink :: outlinks =>
    if c.DomainsCrawl && strings.Contains item.Host outlink.Host && item.Hop == 0 then
      let newItem := frontier.NewItem outlink item 0
      if c.UseKafka && c.KafkaOutlinksTopic.length > 0 then
        (Chan.KafkaProducerChannel, newItem) :: Worker.sendOutlinks c item outlinks
      else
        (Chan.PushChan, newItem) :: Worker.sendOutlinks c item outlinks
    else
      let newItem := frontier.NewItem outlink item (item.Hop + 1)
      if c.UseKafka && c.KafkaOutlinksTopic.length > 0 then
        (Chan.KafkaProducerChannel, newItem) :: Worker.sendOutlinks c item outlinks
      else
        (Chan.PushChan, newItem) :: Worker.sendOutlinks c item outlinks

/-- `Crawl.Worker` (worker.go, lines 12-43). `capture` is the result of
`c.capture(item)`: the outlinks, or an error. The value is the sequence of
channel sends the call performs. -/
def Worker (c : Crawl) (capture : Except String (List frontier.URL))
    (item : frontier.Item) : List (Chan × frontier.Item) :=
  match capture with
  | .error _ => []
  | .ok outlinks =>
    if item.Hop < c.MaxHops then Worker.sendOutlinks c item outlinks else []

/-- The seed `ex.com` at hop 0. -/
def exItem : frontier.Item :=
  .mk { Host := "ex.com".toList, Raw := "http://ex.com/" } "ex.com".toList 0 none

/-- An outlink to `api.ex.com`. -/
def apiOutlink : frontier.URL :=
  { Host := "api.ex.com".toList, Raw := "http://api.ex.com/" }

/-- A crawl with `DomainsCrawl` enabled and `MaxHops = 1`. -/
def domainsCrawl : Crawl :=
  { MaxHops := 1, DomainsCrawl := true, UseKafka := false, KafkaOutlinksTopic := [] }

end crawl

namespace postprocessor

open models

/-- The item as `postprocess` sees it, one field per accessor it calls:
`GetURL`, `GetStatus`/`SetStatus`, `GetRedirection`/`SetRedirection`,
`GetChilds`/`SetChilds`/`AddChild`, `GetChildsCaptured`, `SetBody`, and the
base that `scrapeBaseTag` records. The URL pointers an item holds are
non-nil (invariant 1 of the data model); a response pointer may be nil. -/
structure Item where
  id : String := ""
  url : URL := {}
  status : ItemState := .ItemArchived
  redirection : Option URL := none
  childs : List URL := []
  childsCaptured : Int := 0
  body : Option (List Nat) := none
  base : Option (List Char) := none
  deriving DecidableEq, Repr, Inhabited

/-- Setter `item.SetStatus`. -/
def Item.SetStatus (item : Item) (st : ItemState) : Item := { item with status := st }

/-- Setter `item.SetRedirection`. -/
def Item.SetRedirection (item : Item) (r : Option URL) : Item := { item with redirection := r }

/-- Setter `item.SetChilds`. -/
def Item.SetChilds (item : Item) (cs : List URL) : Item := { item with childs := cs }

/-- Setter `item.SetBody`. -/
def Item.SetBody (item : Item) (b : List Nat) : Item := { item with body := some b }

/-- Method `item.AddChild`: appends one child URL. -/
def Item.AddChild (item : Item) (c : URL) : Item := { item with childs := item.childs ++ [c] }

/-- The options of `config.Get()` that `postprocess` consults. -/
structure Config where
  MaxRedirect : Int
  DisableAssetsCapture : Bool
  DomainsCrawl : Bool
  MaxHops : Int
  deriving DecidableEq, Repr, Inhabited

/-- The document libraries `postprocess` and `extractAssets` call, as
functions of what they are given: whether `goquery.NewDocumentFromReader`
fails on a body, the base that `scrapeBaseTag` finds in a document, the
assets `extractor.HTML` returns (or its error), the matches of the two link
regular expressions on the URL's body, and `utils.DedupeStrings`. -/
structure Env where
  config : Config
  parseFails : List Nat → Bool
  baseTag : List Nat → Option (List Char)
  HTML : List Nat → URL → Except String (List URL)
  regexFindAll : URL → List (List Char)
  DedupeStrings : List (List Char) → List (List Char)

/-- Modelled from the spec: `isStatusCodeRedirect` is not in the sources at
hand; the spec's redirect codes are 301, 302, 303, 307 and 308. -/
def isStatusCodeRedirect (statusCode : Int) : Bool :=
  statusCode == 301 || statusCode == 302 || statusCode == 303 ||
    statusCode == 307 || statusCode == 308

/-- Go conversion `uint64(x)` of a signed integer. -/
def toUint64 (x : Int) : Nat := (x % 2 ^ 64).toNat

/-- The URL after its response body has been read to the end (by `io.Copy`
or by the document parser): no unread bytes are left. -/
def drained (URL : models.URL) : models.URL :=
  match URL.response with
  | none => URL
  | some r => { URL with response := some { r with Body := { r.Body with data := [] } } }

/-- Modelled from the spec: `scrapeBaseTag(doc, item)` is not in the sources
at hand; per the spec it applies the base-tag resolution to the item, here:
records the base found in the document, if any. -/
def scrapeBaseTag (env : Env) (doc : List Nat) (item : Item) : Item :=
  match env.baseTag doc with
  | none => item
  | some b => { item with base := some b }

/-- The loop `for _, asset := range assets { item.AddChild(asset) }`. -/
def addChilds (item : Item) : List URL → Item
  | [] => item
  | asset :: assets => addChilds (item.AddChild asset) assets

/-- `extractAssets` (assets.go, lines 14-52). `ct` is the `Content-Type` of
the URL's response. The value is the item and the error returned. -/
def extractAssets (env : Env) (doc : List Nat) (URL : models.URL) (ct : List Char)
    (item : Item) :
    Item × Option String :=
  let html : Except String (List models.URL) :=
    if strings.Contains ct "html".toList then env.HTML doc URL else .ok []
  match html with
  | .error e => (item, some e)
  | .ok assets =>
    let URLs := env.regexFindAll URL
    let assets := assets ++ (env.DedupeStrings URLs).map
      (fun u => ({ Raw := u, Hops := item.url.Hops } : models.URL))
    (addChilds item assets, none)

/-- The loop `for _, URL := range URLs` of `postprocess` (postprocessor.go,
lines 145-208), from the first URL of the list on. The value is `none` when
the code dereferences a nil response; otherwise the item when the function
leaves the loop (by `return` or at its end) and the URLs with the state of
their response bodies. -/
def postprocess.loop (env : Env) (URLType : URLType) : List URL → Item → Option (Item × List URL)
  | [], item => some (item, [])
  | URL :: URLs, item =>
    -- URLType == models.URLTypeSeed && isStatusCodeRedirect(URL.GetResponse().StatusCode)
    let redirect : Option Bool :=
      if URLType = .URLTypeSeed then
        match URL.response with
        | none => none
        | some r => some (isStatusCodeRedirect r.StatusCode)
      else some false
    match redirect, URL.response with
    | none, _ => none
    | some true, none => none
    | some true, some r =>
      -- Check if the current redirections count doesn't exceed the max allowed
      if URL.Redirects ≥ env.config.MaxRedirect then
        some (item, URL :: URLs)
      else
        some (item.SetRedirection (some
          { Raw := r.Location, Redirects := URL.Redirects + 1, Hops := URL.Hops }), URL :: URLs)
    | some false, resp =>
      let item := item.SetRedirection none
      if item.childsCaptured > 0 || (env.config.DisableAssetsCapture && !env.config.DomainsCrawl
          && decide (toUint64 env.config.MaxHops ≤ toUint64 URL.Hops)) then
        match resp with
        | none => none
        | some _ =>
          -- io.Copy(io.Discard, URL.GetResponse().Body); an error is only logged
          some (item.SetStatus .ItemFailed, drained URL :: URLs)
      else
        match resp with
        | none =>
          (postprocess.loop env URLType URLs item).map (fun r => (r.1, URL :: r.2))
        | some r =>
          -- io.Copy(body, URL.GetResponse().Body)
          if r.Body.readErr then
            some (item, drained URL :: URLs)
          else
            let body := r.Body.data
            let item := item.SetBody body
            -- goquery.NewDocumentFromReader reads the replayable body
            if env.parseFails body then
              some (item, drained URL :: URLs)
            else
              let item := scrapeBaseTag env body item
              let item := (extractAssets env body URL r.ContentType item).1
              (postprocess.loop env URLType URLs item).map (fun r => (r.1, drained URL :: r.2))

/-- `postprocess` (postprocessor.go, lines 120-209). The deferred
`item.SetStatus(models.ItemPostProcessed)` runs when the function returns.
For a seed URL the URL handled is the item's own (`item.GetURL()` is a
pointer), so the state of its response body is the item's. -/
def postprocess (env : Env) (item : Item) : Option (Item × List URL) :=
  let r : Option (Item × List URL) :=
    match item.redirection with
    | some red => postprocess.loop env .URLTypeRedirection [red] item
    | none =>
      if item.childs.length > 0 then
        postprocess.loop env .URLTypeAsset item.childs (item.SetChilds [])
      else
        (postprocess.loop env .URLTypeSeed [item.url] item).map
          (fun r => ({ r.1 with url := r.2.headD r.1.url }, r.2))
  r.map (fun r => (r.1.SetStatus .ItemPostProcessed, r.2))

/-- The configuration of the spec's redirect-cutoff scenario: `max_redirect = 2`. -/
def cutoffEnv : Env :=
  { config := { MaxRedirect := 2, DisableAssetsCapture := false, DomainsCrawl := false,
                MaxHops := 1 },
    parseFails := fun _ => false, baseTag := fun _ => none,
    HTML := fun _ _ => .ok [], regexFindAll := fun _ => [], DedupeStrings := fun l => l }

/-- A seed item whose URL carries a response with the given status code and
`Location` header `http://ex/b`, after `redirects` redirections. -/
def redirectedItem (statusCode redirects : Int) : Item :=
  { id := "0123456789",
    url :=
      { Raw := "http://ex/".toList
        Redirects := redirects
        response := some { StatusCode := statusCode, Location := "http://ex/b".toList } } }

end postprocessor

namespace strings

/-- Go `strings.Index(s, substr)`: the position of the first occurrence of
`substr` in `s`, `none` for -1. -/
def Index : List Char → List Char → Option Nat
  | [], substr => if HasPrefix [] substr then some 0 else none
  | c :: s, substr =>
    if HasPrefix (c :: s) substr then some 0 else (Index s substr).map (· + 1)

/-- Go `explode(s, n)` for `n > 0`: the first `n - 1` characters of `s` one
by one, then the rest. -/
def explode : List Char → Nat → List (List Char)
  | [], _ => []
  | _ :: _, 0 => []
  | c :: s, 1 => [c :: s]
  | c :: s, n + 2 => [c] :: explode s (n + 1)

/-- The pieces of `s` between the occurrences of a non-empty `sep`, found
from the left and not overlapping; `skip` counts the characters of a matched
separator that are still to be passed over. -/
def Split.cut (sep : List Char) : Nat → List Char → List (List Char)
  | _, [] => [[]]
  | skip + 1, _ :: s => Split.cut sep skip s
  | 0, c :: s =>
    if HasPrefix (c :: s) sep then [] :: Split.cut sep (sep.length - 1) s
    else
      match Split.cut sep 0 s with
      | [] => [[c]]
      | p :: ps => (c :: p) :: ps

/-- Go `strings.Split(s, sep)`: all substrings of `s` separated by `sep`; with
an empty `sep`, the characters of `s` one by one. -/
def Split (s sep : List Char) : List (List Char) :=
  if sep = [] then explode s (s.length + 1) else Split.cut sep 0 s

/-- The loop of Go `genSplit`: at most `n` cuts, each at the first occurrence
of `sep` in what is left. -/
def SplitN.loop (sep : List Char) : Nat → List Char → List (List Char)
  | 0, s => [s]
  | n + 1, s =>
    match Index s sep with
    | none => [s]
    | some m => s.take m :: SplitN.loop sep n (s.drop (m + sep.length))

/-- Go `strings.SplitN(s, sep, n)` for `n ≥ 0`: at most `n` substrings, the
last one the unsplit remainder. -/
def SplitN (s sep : List Char) (n : Nat) : List (List Char) :=
  match n with
  | 0 => []
  | k + 1 => if sep = [] then explode s (k + 1) else SplitN.loop sep k s

/-- Go `strings.TrimLeft(s, cutset)`. -/
def TrimLeft (s cutset : List Char) : List Char := s.dropWhile (fun c => decide (c ∈ cutset))

/-- Go `strings.TrimRight(s, cutset)`. -/
def TrimRight (s cutset : List Char) : List Char :=
  (s.reverse.dropWhile (fun c => decide (c ∈ cutset))).reverse

/-- Go `strings.Trim(s, cutset)`: `s` without the leading and trailing
characters that are in `cutset`. -/
def Trim (s cutset : List Char) : List Char := TrimRight (TrimLeft s cutset) cutset

/-- Go `unicode.IsSpace`: the Latin-1 spaces `\t \n \v \f \r`, space, U+0085
and U+00A0, and the code points of category Z and property
Pattern_White_Space above them. -/
def isSpace (c : Char) : Bool :=
  let n := c.toNat
  (9 ≤ n && n ≤ 13) || n == 0x20 || n == 0x85 || n == 0xA0 || n == 0x1680 ||
    (0x2000 ≤ n && n ≤ 0x200A) || n == 0x2028 || n == 0x2029 || n == 0x202F ||
    n == 0x205F || n == 0x3000

/-- Go `strings.TrimSpace(s)`: `s` without leading and trailing white space. -/
def TrimSpace (s : List Char) : List Char :=
  ((s.dropWhile isSpace).reverse.dropWhile isSpace).reverse

end strings

namespace extractor

open strings

/-- `parseAttr` (link_header.go, lines 56-68): the key and the value of one
attribute, both empty when the attribute has no `=`. -/
def parseAttr (attrs : List Char) : List Char × List Char :=
  let kv := SplitN attrs "=".toList 2
  match kv with
  | [k, v] => (TrimSpace k, TrimSpace (Trim v "\"".toList))
  | _ => ([], [])

/-- The loop `for _, attrs := range parts[1:]` of `ExtractURLsFromHeader`
(lines 36-46). It changes nothing outside itself; the value tells whether it
was left by the `break` at a `rel` key. -/
def scanAttrs : List (List Char) → Bool
  | [] => false
  | attrs :: rest =>
    let key := (parseAttr attrs).1
    if key = [] then scanAttrs rest
    else if key = "rel".toList then true
    else scanAttrs rest

/-- The loop `for _, link := range strings.Split(link, ", ")` of
`ExtractURLsFromHeader` (lines 23-51); `URLs` is the slice built so far. -/
def ExtractURLsFromHeader.loop : List (List Char) → List models.URL → List models.URL
  | [], URLs => URLs
  | link :: links, URLs =>
    match Split link ";".toList with
    | [] => ExtractURLsFromHeader.loop links URLs
    | part0 :: attrs =>
      let extractedURL := TrimSpace (Trim part0 "<>".toList)
      if extractedURL = [] then ExtractURLsFromHeader.loop links URLs
      else
        let _rel := scanAttrs attrs
        ExtractURLsFromHeader.loop links (URLs ++ [{ Raw := extractedURL }])

/-- `ExtractURLsFromHeader` (link_header.go, lines 16-54): the URLs of the
`link` header of the URL's response; `none` when the response is nil. -/
def ExtractURLsFromHeader (URL : models.URL) : Option (List models.URL) :=
  match URL.response with
  | none => none
  | some r =>
    let link := r.Link
    if link = [] then some []
    else some (ExtractURLsFromHeader.loop (Split link ", ".toList) [])

/-- A URL whose response carries the given `link` header. -/
def withLink (link : List Char) : models.URL :=
  { Raw := "http://ex/".toList, response := some { StatusCode := 200, Link := link } }

/-- One entry of a Link header: the URL text and the attributes. -/
structure Entry where
  u : List Char
  attrs : List (List Char)
  deriving DecidableEq, Repr, Inhabited

/-- The text of an entry: `<u>` followed by `; attr` for each attribute. -/
def Entry.render (e : Entry) : List Char :=
  '<' :: e.u ++ '>' :: (e.attrs.map (fun a => ';' :: ' ' :: a)).flatten

/-- The header made of the entries joined by `, `. -/
def renderHeader (es : List Entry) : List Char :=
  ", ".toList.intercalate (es.map Entry.render)

/-- Whether an entry is of the form the Link header grammar asks for: `u` is
non-empty, holds no `<`, `>`, `;` and no `, `, neither starts nor ends with
white space, and no attribute holds `, `. -/
def Entry.wellFormed (e : Entry) : Prop :=
  e.u ≠ [] ∧ '<' ∉ e.u ∧ '>' ∉ e.u ∧ ';' ∉ e.u ∧ ¬ ", ".toList <:+: e.u ∧
    (∀ c, e.u.head? = some c → isSpace c = false) ∧
    (∀ c, e.u.getLast? = some c → isSpace c = false) ∧
    ∀ a ∈ e.attrs, ¬ ", ".toList <:+: a

instance (e : Entry) : Decidable e.wellFormed := by
  unfold Entry.wellFormed
  have h1 : Decidable (∀ c, e.u.head? = some c → isSpace c = false) := by
    cases h : e.u.head? with
    | none => exact isTrue (fun c hc => by cases hc)
    | some d =>
      by_cases hd : isSpace d = false
      · exact isTrue (fun c hc => by cases hc; exact hd)
      · exact isFalse (fun hall => hd (hall d rfl))
  have h2 : Decidable (∀ c, e.u.getLast? = some c → isSpace c = false) := by
    cases h : e.u.getLast? with
    | none => exact isTrue (fun c hc => by cases hc)
    | some d =>
      by_cases hd : isSpace d = false
      · exact isTrue (fun c hc => by cases hc; exact hd)
      · exact isFalse (fun hall => hd (hall d rfl))
  infer_instance

/-- The two entries of the spec's Link header scenario. -/
def specEntries : List Entry :=
  [ { u := "http://a/".toList, attrs := ["rel=\"next\"".toList] },
    { u := "http://b/".toList, attrs := ["rel=\"prev\"".toList] } ]

end extractor

namespace strings

/-- No occurrence of `sep` starts inside `e` when `e` is followed by `tail`. -/
def NoStart (sep e tail : List Char) : Prop :=
  ∀ t, t ≠ [] → t <:+ e → ¬ sep <+: t ++ tail

end strings

namespace extractor

/-- The URL text `ExtractURLsFromHeader` takes from one entry of the header:
the part before the first `;`, without leading and trailing `<` and `>`, then
without surrounding white space (lines 24-30). -/
def entryURL (link : List Char) : List Char :=
  strings.TrimSpace (strings.Trim ((strings.Split link ";".toList).headD []) "<>".toList)

end extractor

namespace gocrawlhq

/-- The struct `gocrawlhq.URL` of the coordinator's wire form: the value and
the type of a URL. -/
structure URL where
  Value : String
  Type_ : String
  deriving DecidableEq, Repr, Inhabited

end gocrawlhq

namespace hq

/-- Modelled from the spec: the conversion `string(URLsType)`; the wire form
names the types `seed`, `asset` and `redirection`. -/
def typeString : models.URLType → String
  | .URLTypeSeed => "seed"
  | .URLTypeRedirection => "redirection"
  | .URLTypeAsset => "asset"

/-- The first loop of `SeencheckURLs` (seencheck.go, lines 14-19): one
`gocrawlhq.URL` per input URL, appended in order. `urlString` is the method
`URL.String()`. -/
def SeencheckURLs.discover (urlString : models.URL → String) (URLsType : models.URLType) :
    List models.URL → List gocrawlhq.URL → List gocrawlhq.URL
  | [], discoveredURLs => discoveredURLs
  | URL :: URLs, discoveredURLs =>
    SeencheckURLs.discover urlString URLsType URLs
      (discoveredURLs ++ [{ Value := urlString URL, Type_ := typeString URLsType }])

/-- The inner loop of `SeencheckURLs` (lines 29-34): whether the loop over
`outputURLs` reaches the `append` and `break` for a URL of string value `s`. -/
def SeencheckURLs.found (s : String) : List gocrawlhq.URL → Bool
  | [] => false
  | outputURL :: outputURLs =>
    if s = outputURL.Value then true else SeencheckURLs.found s outputURLs

/-- The outer loop of `SeencheckURLs` (lines 28-35). -/
def SeencheckURLs.keep (urlString : models.URL → String) (outputURLs : List gocrawlhq.URL) :
    List models.URL → List models.URL → List models.URL
  | [], seencheckedURLs => seencheckedURLs
  | URL :: URLs, seencheckedURLs =>
    SeencheckURLs.keep urlString outputURLs URLs
      (if SeencheckURLs.found (urlString URL) outputURLs then seencheckedURLs ++ [URL]
       else seencheckedURLs)

/-- `SeencheckURLs` (seencheck.go, lines 11-39). `Seencheck` is the call
`globalHQ.client.Seencheck`: an error, or the slice of URLs of the response
(`none` for a nil slice). The value is the slice returned and the error. -/
def SeencheckURLs (urlString : models.URL → String)
    (Seencheck : List gocrawlhq.URL → Except String (Option (List gocrawlhq.URL)))
    (URLsType : models.URLType) (URLs : List models.URL) : List models.URL × Option String :=
  let discoveredURLs := SeencheckURLs.discover urlString URLsType URLs []
  match Seencheck discoveredURLs with
  | .error err => (URLs, some err)
  | .ok outputURLs =>
    match outputURLs with
    | some outputURLs => (SeencheckURLs.keep urlString outputURLs URLs [], none)
    | none => ([], none)

/-- The string value of a URL in the examples: its raw text. -/
def rawString (u : models.URL) : String := String.mk u.Raw

/-- Three input URLs `a`, `b`, `c`. -/
def abc : List models.URL :=
  [{ Raw := "a".toList }, { Raw := "b".toList }, { Raw := "c".toList }]

end hq

namespace sqlc_model

/-- The struct `sqlc_model.Url` as `LQClient.Add` reads it. -/
structure Url where
  ID : String := ""
  Value : String
  Via : String := ""
  Hops : Int := 0
  deriving DecidableEq, Repr, Inhabited

/-- The struct `sqlc_model.AddURLParams`. -/
structure AddURLParams where
  ID : String
  Value : String
  Via : String
  Hops : Int
  deriving DecidableEq, Repr, Inhabited

end sqlc_model

namespace lq

/-- One row of the table `urls(id PRIMARY KEY, value UNIQUE, via, hops,
status, claimed_at)` of the local queue. -/
structure Row where
  id : String
  value : String
  via : String
  hops : Int
  status : String
  claimed_at : Option Int
  deriving DecidableEq, Repr, Inhabited

/-- The table `urls`: its rows, in insertion order. -/
abbrev Table := List Row

/-- The message the code recognises as the UNIQUE violation on `value`
(client.go, line 97). -/
def uniqueValueErr : String := "sqlite3: constraint failed: UNIQUE constraint failed: urls.value"

/-- The message for a violation of the primary key. -/
def uniqueIdErr : String := "sqlite3: constraint failed: UNIQUE constraint failed: urls.id"

/-- Modelled from the spec: the query `AddURL` and the schema are not in the
sources at hand. It inserts one fresh row; the insert is refused with the
UNIQUE violation on `value` when a row with that value is stored, and with
the primary-key violation when the value is new and a row with that id is
stored. -/
def AddURL (t : Table) (arg : sqlc_model.AddURLParams) : Except String Table :=
  if arg.Value ∈ t.map Row.value then .error uniqueValueErr
  else if arg.ID ∈ t.map Row.id then .error uniqueIdErr
  else .ok (t ++ [{ id := arg.ID, value := arg.Value, via := arg.Via, hops := arg.Hops,
                    status := "fresh", claimed_at := none }])

/-- What the environment gives one call of `Add`: the error of `Begin` and
of `Commit` (`none` when they succeed), and the string of the `uuid.New()`
drawn for the URL at each position of the batch. -/
structure AddEnv where
  beginErr : Option String := none
  commitErr : Option String := none
  uuid : Nat → String

/-- The loop `for _, url := range urls` of `LQClient.Add` (client.go, lines
86-103) from position `i` of the batch on, inside the transaction whose
table is `tx`: the table at the end of the loop, or the error returned. -/
def Add.loop (env : AddEnv) : Nat → List sqlc_model.Url → Table → Except String Table
  | _, [], tx => .ok tx
  | i, url :: urls, tx =>
    let ID := if url.ID = "" then env.uuid i else url.ID
    match AddURL tx { ID := ID, Value := url.Value, Via := url.Via, Hops := url.Hops } with
    | .error err =>
      if err = uniqueValueErr then Add.loop env (i + 1) urls tx
      else .error err
    | .ok tx => Add.loop env (i + 1) urls tx

/-- `LQClient.Add` (client.go, lines 77-111) on the table `db`: the table
after the call and the error returned. A return before the commit, and a
failed commit, leave the table as it was (`defer tx.Rollback()`). -/
def Add (db : Table) (env : AddEnv) (urls : List sqlc_model.Url) (bypassSeencheck : Bool) :
    Table × Option String :=
  let _ := bypassSeencheck
  match env.beginErr with
  | some err => (db, some err)
  | none =>
    match Add.loop env 0 urls db with
    | .error err => (db, some err)
    | .ok tx =>
      match env.commitErr with
      | some err => (db, some err)
      | none => (tx, none)

/-- One call of `Add` in a sequence: what the environment gives it, the
batch and the flag. -/
structure Call where
  env : AddEnv
  urls : List sqlc_model.Url
  bypassSeencheck : Bool := false

/-- The table after a sequence of `Add` calls, whatever each returns. -/
def AddSeq : Table → List Call → Table
  | db, [] => db
  | db, c :: cs => AddSeq (Add db c.env c.urls c.bypassSeencheck).1 cs

/-- The number of rows of a table that hold the value `v`. -/
def rowsFor (t : Table) (v : String) : Nat := (t.map Row.value).count v

/-- An environment where `Begin` and `Commit` succeed and the uuids are
`uuid-0`, `uuid-1`, ... offset by `k`. -/
def okEnv (k : Nat) : AddEnv := { uuid := fun i => "uuid-" ++ toString (k + i) }

end lq

namespace models

/-- Why a call on the heap did not return a value: it dereferenced a nil
pointer (a run-time panic), or the recursion ran deeper than the fuel given
to it (on a cyclic structure the Go code never returns). -/
inductive Fault where
  | nilDeref
  | outOfFuel
  deriving DecidableEq, Repr, Inhabited

/-- Equality of results is decidable. -/
instance instDecidableEqResult {ε α : Type} [DecidableEq ε] [DecidableEq α] :
    DecidableEq (Except ε α) := fun a b =>
  match a, b with
  | .ok x, .ok y =>
    if hxy : x = y then isTrue (by rw [hxy])
    else isFalse (fun hc => by cases hc; exact hxy rfl)
  | .error x, .error y =>
    if hxy : x = y then isTrue (by rw [hxy])
    else isFalse (fun hc => by cases hc; exact hxy rfl)
  | .ok _, .error _ => isFalse (fun hc => by cases hc)
  | .error _, .ok _ => isFalse (fun hc => by cases hc)

/-- The loop `for _, child := range i.children` of `Item.GetMaxDepth`
(item.go, lines 122-127); `call` is the recursive call `child.GetMaxDepth()`
and `maxDepth` the running maximum. A nil child is dereferenced by the call. -/
def Item.GetMaxDepth.loop (call : Ptr → Except Fault Int) :
    List (Option Ptr) → Int → Except Fault Int
  | [], maxDepth => .ok maxDepth
  | none :: _, _ => .error .nilDeref
  | some child :: children, maxDepth =>
    match call child with
    | .error e => .error e
    | .ok childDepth =>
      Item.GetMaxDepth.loop call children
        (if childDepth > maxDepth then childDepth else maxDepth)

/-- `Item.GetMaxDepth` (item.go, lines 116-129) on the item at `i`, with the
recursion depth bounded by the fuel. The `int64` depths are unbounded
integers: a depth is at most the number of nested calls. -/
def Item.GetMaxDepth (h : Heap) : Nat → Ptr → Except Fault Int
  | 0, _ => .error .outOfFuel
  | fuel + 1, i =>
    if (h i).children.length = 0 then .ok 0
    else
      match Item.GetMaxDepth.loop (Item.GetMaxDepth h fuel) (h i).children 0 with
      | .error e => .error e
      | .ok maxDepth => .ok (maxDepth + 1)

/-- `Item.GetDepth` (item.go, lines 131-137) on the item at `i`, with the
recursion depth bounded by the fuel; a non-seed item with a nil parent makes
the recursive call dereference nil. -/
def Item.GetDepth (h : Heap) : Nat → Ptr → Except Fault Int
  | 0, _ => .error .outOfFuel
  | fuel + 1, i =>
    if (h i).seed then .ok 0
    else
      match (h i).parent with
      | none => .error .nilDeref
      | some parent =>
        match Item.GetDepth h fuel parent with
        | .error e => .error e
        | .ok d => .ok (d + 1)

/-- The loop `for p := i.parent; p != nil; p = p.parent` of `Item.GetSeed`
(item.go, lines 153-158), from the pointer `p` on; the number of iterations
is bounded by the fuel. The value is the pointer returned (`none` for nil). -/
def Item.GetSeed.loop (h : Heap) : Nat → Option Ptr → Except Fault (Option Ptr)
  | 0, _ => .error .outOfFuel
  | _ + 1, none => .ok none
  | fuel + 1, some p =>
    if (h p).seed then .ok (some p) else Item.GetSeed.loop h fuel (h p).parent

/-- `Item.GetSeed` (item.go, lines 148-159) on the item at `i`. -/
def Item.GetSeed (h : Heap) (fuel : Nat) (i : Ptr) : Except Fault (Option Ptr) :=
  if (h i).seed then .ok (some i) else Item.GetSeed.loop h fuel (h i).parent

/-- The error value `ErrNotASeed` (item.go, line 191). -/
def ErrNotASeed : String := "item is not a seed"

/-- The loop `for _, child := range node.children` of the closure
`_recursiveGetNodesAtLevel` (item.go, lines 179-181); `call` is the recursive
call on one child, which takes and gives back the `result` slice. -/
def Item.GetNodesAtLevel.children (call : Option Ptr → List Ptr → Except Fault (List Ptr)) :
    List (Option Ptr) → List Ptr → Except Fault (List Ptr)
  | [], result => .ok result
  | child :: children, result =>
    match call child result with
    | .error e => .error e
    | .ok result => Item.GetNodesAtLevel.children call children result

/-- The closure `_recursiveGetNodesAtLevel(node, currentLevel)` (item.go,
lines 169-182), with the recursion depth bounded by the fuel. `result` is the
captured slice; the value is the slice after the call. The levels are
unbounded integers: `currentLevel` grows by one per nested call. -/
def Item.GetNodesAtLevel.recursive (h : Heap) (targetLevel : Int) :
    Nat → Option Ptr → Int → List Ptr → Except Fault (List Ptr)
  | 0, _, _, _ => .error .outOfFuel
  | _ + 1, none, _, result => .ok result
  | fuel + 1, some node, currentLevel, result =>
    if currentLevel = targetLevel then .ok (result ++ [node])
    else
      Item.GetNodesAtLevel.children
        (fun child result =>
          Item.GetNodesAtLevel.recursive h targetLevel fuel child (currentLevel + 1) result)
        (h node).children result

/-- `Item.GetNodesAtLevel` (item.go, lines 161-186) on the item at `i`: the
slice of item pointers and the error returned. -/
def Item.GetNodesAtLevel (h : Heap) (fuel : Nat) (i : Ptr) (targetLevel : Int) :
    Except Fault (List Ptr × Option String) :=
  if !(h i).seed then .ok ([], some ErrNotASeed)
  else
    match Item.GetNodesAtLevel.recursive h targetLevel fuel (some i) 0 [] with
    | .error e => .error e
    | .ok result => .ok (result, none)

/-- The item reached from `p` by following `k` parent pointers, `none` when a
nil parent is met on the way. -/
def ancestor (h : Heap) : Nat → Ptr → Option Ptr
  | 0, p => some p
  | k + 1, p =>
    match (h p).parent with
    | none => none
    | some q => ancestor h k q

/-- The items reached from `p` by following `n` child links, one entry per
path, in the left-to-right order of the `children` slices; nil children lead
nowhere. -/
def levelNodes (h : Heap) : Nat → Ptr → List Ptr
  | 0, p => [p]
  | n + 1, p =>
    (h p).children.flatMap (fun c =>
      match c with
      | none => []
      | some q => levelNodes h n q)

/-- The heap is well linked: no `children` slice holds a pointer twice, and
every child points back to its holder as its parent. -/
def wellLinked (h : Heap) : Prop :=
  ∀ p, (h p).children.Nodup ∧ ∀ q, some q ∈ (h p).children → (h q).parent = some p

/-- A blank item with the given seed flag, parent and children. -/
def mkItem (seed : Bool) (parent : Option Ptr) (children : List (Option Ptr)) : Item :=
  { id := "id", url := some {}, seed := seed, seedVia := "", status := .ItemFresh,
    source := .ItemSourceInsert, children := children, parent := parent, err := none }

/-- A tree of five items: the seed 0 holds 1 and 2, item 1 holds 3 and 4;
every address above 4 holds a copy of item 4 that nobody holds. -/
def treeHeap : Heap := fun p =>
  match p with
  | 0 => mkItem true none [some 1, some 2]
  | 1 => mkItem false (some 0) [some 3, some 4]
  | 2 => mkItem false (some 0) []
  | 3 => mkItem false (some 1) []
  | _ => mkItem false (some 1) []

end models

namespace models

/-- The tree below `p` has no nil child and fewer than `D` levels: every
child pointer is non-nil and the same holds, one level less, below it. -/
def fullTree (h : Heap) : Nat → Ptr → Bool
  | 0, _ => false
  | D + 1, p =>
    (h p).children.all (fun c =>
      match c with
      | none => false
      | some q => fullTree h D q)

end models

namespace postprocessor

open models

/-- The URLs one call of `postprocess` handles (postprocessor.go, lines
133-143): the redirection URL if one is attached, else the children
discovered prior if there are any, else the item's own URL. -/
def handledURLs (item : Item) : List URL :=
  match item.redirection with
  | some red => [red]
  | none => if item.childs.length > 0 then item.childs else [item.url]

/-- An environment whose link expressions find the asset `http://ex/a.png`
in every body, with the given `DisableAssetsCapture`, `DomainsCrawl` and
`MaxHops`. -/
def captureEnv (disable domains : Bool) (maxHops : Int) : Env :=
  { config := { MaxRedirect := 2, DisableAssetsCapture := disable, DomainsCrawl := domains,
                MaxHops := maxHops },
    parseFails := fun _ => false, baseTag := fun _ => none,
    HTML := fun _ _ => .ok [], regexFindAll := fun _ => ["http://ex/a.png".toList],
    DedupeStrings := fun l => l }

/-- A seed item at the given hop count whose URL carries a 200 response with
a two-byte body. -/
def fetchedItem (hops : Int) : Item :=
  { id := "0123456789",
    url :=
      { Raw := "http://ex/".toList
        Hops := hops
        response := some { StatusCode := 200, Body := { data := [104, 105] } } } }

/-- An item with a redirection URL attached whose response is a 302 to
`http://ex/c`. -/
def redirectionItem : Item :=
  { id := "0123456789",
    url := { Raw := "http://ex/".toList },
    redirection := some
      { Raw := "http://ex/b".toList
        Redirects := 1
        response := some { StatusCode := 302, Location := "http://ex/c".toList } } }

end postprocessor

namespace crawl

/-- An outlink to `x.com`, another domain whose host happens to be a part
of the text `ex.com`. -/
def xOutlink : frontier.URL :=
  { Host := "x.com".toList, Raw := "http://x.com/" }

/-- A crawl that routes outlinks to Kafka: `UseKafka` set, the outlinks topic
`outlinks`, `MaxHops = 2`, `DomainsCrawl` disabled. -/
def kafkaCrawl : Crawl :=
  { MaxHops := 2, DomainsCrawl := false, UseKafka := true,
    KafkaOutlinksTopic := "outlinks".toList }

end crawl

/-! ## Theorems -/

namespace models

/-- C1. `CheckConsistency` returns the nil error exactly when the url is
non-nil, the id is non-empty, the item is a seed exactly when its parent is
nil, and a non-empty seedVia occurs only on a seed. -/
theorem checkConsistency_none_iff (i : Item) :
    i.CheckConsistency = none ↔
      (i.url ≠ none ∧ i.id ≠ "" ∧ (i.seed = true ↔ i.parent = none) ∧
        (i.seedVia ≠ "" → i.seed = true)) := by
  unfold Item.CheckConsistency
  cases hs : i.seed <;> by_cases hu : i.url = none <;> by_cases hi : i.id = "" <;>
    by_cases hp : i.parent = none <;> by_cases hv : i.seedVia = "" <;> simp [hu, hi, hp, hv]

/-- C2, counterexample. In `orphanHeap` the item at address 1 is not a seed
and passes `CheckConsistency`, yet the `children` slice of its parent does
not hold it. -/
theorem checkConsistency_misses_bidirectional :
    (orphanHeap 1).seed = false ∧ (orphanHeap 1).CheckConsistency = none ∧
      (orphanHeap 1).parent = some 0 ∧ some 1 ∉ (orphanHeap 0).children ∧
      ¬ parentHoldsChild orphanHeap 1 := by
  refine ⟨rfl, by decide, rfl, by decide, by decide⟩

/-- C2, amended. A non-seed item that passes `CheckConsistency` has a
non-nil parent, a non-nil url, a non-empty id and an empty seedVia; the
verdict is a function of these four fields and the seed flag alone, so two
items that agree on them get the same verdict whatever their `children`,
and nothing is said about the parent's `children`. -/
theorem checkConsistency_child_fields (i : Item) (hseed : i.seed = false)
    (hok : i.CheckConsistency = none) :
    i.parent ≠ none ∧ i.url ≠ none ∧ i.id ≠ "" ∧ i.seedVia = "" ∧
      ∀ j : Item, j.url = i.url → j.id = i.id → j.seed = i.seed →
        j.parent = i.parent → j.seedVia = i.seedVia → j.CheckConsistency = none := by
  have h := (checkConsistency_none_iff i).mp hok
  obtain ⟨hu, hi, hp, hv⟩ := h
  refine ⟨?_, hu, hi, ?_, ?_⟩
  · intro hn
    have := hp.mpr hn
    simp [hseed] at this
  · by_contra hne
    have := hv hne
    simp [hseed] at this
  · intro j h1 h2 h3 h4 h5
    unfold Item.CheckConsistency at hok ⊢
    rw [h1, h2, h3, h4, h5]
    exact hok

/-- Witness of `checkConsistency_child_fields` at the child of `orphanHeap`. -/
theorem checkConsistency_child_fields_witness :
    (orphanHeap 1).seed = false ∧ (orphanHeap 1).CheckConsistency = none ∧
      (orphanHeap 1).parent ≠ none :=
  ⟨rfl, by decide, (checkConsistency_child_fields (orphanHeap 1) rfl (by decide)).1⟩

end models

namespace strings

theorem hasPrefix_iff (s pre : List Char) : HasPrefix s pre = true ↔ pre <+: s := by
  induction pre generalizing s with
  | nil => cases s <;> simp [HasPrefix]
  | cons d pre ih =>
    cases s with
    | nil => simp [HasPrefix]
    | cons c s =>
      simp only [HasPrefix, Bool.and_eq_true, beq_iff_eq, ih, List.cons_prefix_cons]
      constructor
      · rintro ⟨h1, h2⟩; exact ⟨h1.symm, h2⟩
      · rintro ⟨h1, h2⟩; exact ⟨h1.symm, h2⟩

theorem contains_iff (s substr : List Char) : Contains s substr = true ↔ substr <:+: s := by
  induction s with
  | nil =>
    simp only [Contains, hasPrefix_iff]
    constructor
    · intro h; exact h.isInfix
    · intro h
      have := List.eq_nil_of_infix_nil h
      subst this; exact List.prefix_rfl
  | cons c s ih =>
    simp only [Contains, Bool.or_eq_true, hasPrefix_iff, ih, List.infix_cons_iff]

end strings

namespace crawl

theorem hops_sendOutlinks (c : Crawl) (item : frontier.Item) (outlinks : List frontier.URL) :
    (Worker.sendOutlinks c item outlinks).map (fun s => s.2.Hop) =
      outlinks.map (fun o =>
        if c.DomainsCrawl && strings.Contains item.Host o.Host && item.Hop == 0 then 0
        else item.Hop + 1) := by
  induction outlinks with
  | nil => rfl
  | cons o os ih =>
    simp only [Worker.sendOutlinks, List.map_cons]
    split <;> split <;> simp_all [frontier.NewItem, frontier.Item.Hop]

/-- C3, counterexample. With `DomainsCrawl` enabled and `MaxHops = 1`, the
item `ex.com` at hop 0 and the captured outlink `api.ex.com`, whose host
contains the item's host, `Worker` creates the new item with hop 1. -/
theorem worker_subdomain_outlink_hop_one :
    domainsCrawl.DomainsCrawl = true ∧ 0 < domainsCrawl.MaxHops ∧ exItem.Hop = 0 ∧
      exItem.Host <:+: apiOutlink.Host ∧
      (Worker domainsCrawl (.ok [apiOutlink]) exItem).map (fun s => s.2.Hop) = [1] := by
  refine ⟨rfl, by decide, rfl, ?_, by decide⟩
  exact (strings.contains_iff _ _).mp (by decide)

/-- C3, amended. With `DomainsCrawl` enabled and `MaxHops > 0`, for an item
at hop 0, `Worker` creates one new item per captured outlink, with hop 0 when
the outlink's host is a substring of the item's host (the test is
`strings.Contains(item.Host, outlink.Host)`) and with hop 1 otherwise. -/
theorem worker_domainsCrawl_hops (c : Crawl) (item : frontier.Item)
    (outlinks : List frontier.URL) (hd : c.DomainsCrawl = true) (hm : 0 < c.MaxHops)
    (h0 : item.Hop = 0) :
    (Worker c (.ok outlinks) item).map (fun s => s.2.Hop) =
      outlinks.map (fun o => if o.Host <:+: item.Host then 0 else 1) := by
  have hlt : item.Hop < c.MaxHops := by omega
  simp only [Worker, hlt, if_true, hops_sendOutlinks]
  apply List.map_congr_left
  intro o _
  by_cases hc : o.Host <:+: item.Host
  · have := (strings.contains_iff item.Host o.Host).mpr hc
    simp [hd, h0, this, hc]
  · have : strings.Contains item.Host o.Host = false := by
      cases hb : strings.Contains item.Host o.Host with
      | false => rfl
      | true => exact absurd ((strings.contains_iff _ _).mp hb) hc
    simp [hd, h0, this, hc]

/-- Witness of `worker_domainsCrawl_hops`: the item `ex.com` at hop 0 with
the outlinks `api.ex.com` and `ex.com`. -/
theorem worker_domainsCrawl_hops_witness :
    (Worker domainsCrawl (.ok [apiOutlink, exItem.URL]) exItem).map (fun s => s.2.Hop) =
      [apiOutlink, exItem.URL].map (fun o => if o.Host <:+: exItem.Host then 0 else 1) :=
  worker_domainsCrawl_hops domainsCrawl exItem [apiOutlink, exItem.URL] rfl (by decide) rfl

end crawl

namespace postprocessor

open models

theorem loop_seed_redirect (env : Env) (URL : models.URL) (URLs : List models.URL) (item : Item)
    (r : Response) (hr : URL.response = some r)
    (hc : isStatusCodeRedirect r.StatusCode = true) :
    postprocess.loop env .URLTypeSeed (URL :: URLs) item =
      if URL.Redirects ≥ env.config.MaxRedirect then some (item, URL :: URLs)
      else some (item.SetRedirection (some
        { Raw := r.Location, Redirects := URL.Redirects + 1, Hops := URL.Hops }), URL :: URLs) := by
  simp [postprocess.loop, hr, hc]

theorem postprocess_seed_redirect (env : Env) (item : Item) (r : Response)
    (hred : item.redirection = none) (hch : item.childs = [])
    (hr : item.url.response = some r) (hc : isStatusCodeRedirect r.StatusCode = true) :
    postprocess env item =
      if item.url.Redirects ≥ env.config.MaxRedirect then
        some (item.SetStatus .ItemPostProcessed, [item.url])
      else
        some (((item.SetRedirection (some
          { Raw := r.Location, Redirects := item.url.Redirects + 1,
            Hops := item.url.Hops })).SetStatus .ItemPostProcessed), [item.url]) := by
  simp only [postprocess, hred, hch, List.length_nil, lt_irrefl, if_false,
    loop_seed_redirect env item.url [] item r hr hc]
  split <;> rfl

/-- C4, counterexample. With `max_redirect = 2`, a seed item that arrives
with `redirects = 2` and a 302 response leaves `postprocess` with the status
`ItemPostProcessed`, not `ItemFailed`. -/
theorem postprocess_cutoff_not_failed :
    (redirectedItem 302 2).redirection = none ∧ (redirectedItem 302 2).childs = [] ∧
      isStatusCodeRedirect 302 = true ∧
      (redirectedItem 302 2).url.Redirects ≥ cutoffEnv.config.MaxRedirect ∧
      (postprocess cutoffEnv (redirectedItem 302 2)).map (fun r => r.1.status) =
        some ItemState.ItemPostProcessed ∧
      (postprocess cutoffEnv (redirectedItem 302 2)).map (fun r => r.1.status) ≠
        some ItemState.ItemFailed := by
  refine ⟨rfl, rfl, by decide, by decide, by decide, by decide⟩

/-- C4, amended. A seed URL (no redirection attached, no children discovered
prior) whose response status is a redirect code and whose redirect count is
greater than or equal to `MaxRedirect`: `postprocess` returns, the item's
status is then `ItemPostProcessed` (set by the deferred `SetStatus`), no
redirection URL is attached and no child is added. -/
theorem postprocess_cutoff_status (env : Env) (item : Item) (r : Response)
    (hred : item.redirection = none) (hch : item.childs = [])
    (hr : item.url.response = some r) (hc : isStatusCodeRedirect r.StatusCode = true)
    (hmax : item.url.Redirects ≥ env.config.MaxRedirect) :
    ∃ out, postprocess env item = some out ∧ out.1.status = ItemState.ItemPostProcessed ∧
      out.1.redirection = none ∧ out.1.childs = [] := by
  refine ⟨_, (postprocess_seed_redirect env item r hred hch hr hc).trans (if_pos hmax), rfl, ?_, ?_⟩
  · exact hred
  · exact hch

/-- Witness of `postprocess_cutoff_status`: `max_redirect = 2`, `redirects = 2`,
status 302. -/
theorem postprocess_cutoff_status_witness :
    ∃ out, postprocess cutoffEnv (redirectedItem 302 2) = some out ∧
      out.1.status = ItemState.ItemPostProcessed ∧ out.1.redirection = none ∧
      out.1.childs = [] :=
  postprocess_cutoff_status cutoffEnv (redirectedItem 302 2)
    { StatusCode := 302, Location := "http://ex/b".toList } rfl rfl rfl (by decide) (by decide)

/-- C5. A seed URL whose response status is a redirect code: `postprocess`
returns; when the redirect count is below `MaxRedirect` the item then has a
redirection URL attached whose `Raw` is the `Location` header, whose
`Redirects` is the current count plus one and whose `Hops` is the current
URL's; when the count is greater than or equal to `MaxRedirect` no
redirection URL is attached. -/
theorem postprocess_redirect_attached (env : Env) (item : Item) (r : Response)
    (hred : item.redirection = none) (hch : item.childs = [])
    (hr : item.url.response = some r) (hc : isStatusCodeRedirect r.StatusCode = true) :
    ∃ out, postprocess env item = some out ∧
      (item.url.Redirects < env.config.MaxRedirect →
        ∃ red, out.1.redirection = some red ∧ red.Raw = r.Location ∧
          red.Redirects = item.url.Redirects + 1 ∧ red.Hops = item.url.Hops) ∧
      (item.url.Redirects ≥ env.config.MaxRedirect → out.1.redirection = none) := by
  have h := postprocess_seed_redirect env item r hred hch hr hc
  by_cases hmax : item.url.Redirects ≥ env.config.MaxRedirect
  · rw [if_pos hmax] at h
    refine ⟨_, h, ?_, fun _ => hred⟩
    intro hlt
    omega
  · rw [if_neg hmax] at h
    refine ⟨_, h, ?_, fun hge => absurd hge hmax⟩
    intro _
    exact ⟨_, rfl, rfl, rfl, rfl⟩

/-- Witness of `postprocess_redirect_attached`: `max_redirect = 2`, a seed
with `redirects = 1` and a 301 response. -/
theorem postprocess_redirect_attached_witness :
    ∃ out, postprocess cutoffEnv (redirectedItem 301 1) = some out ∧
      ((redirectedItem 301 1).url.Redirects < cutoffEnv.config.MaxRedirect →
        ∃ red, out.1.redirection = some red ∧ red.Raw = "http://ex/b".toList ∧
          red.Redirects = (redirectedItem 301 1).url.Redirects + 1 ∧
          red.Hops = (redirectedItem 301 1).url.Hops) ∧
      ((redirectedItem 301 1).url.Redirects ≥ cutoffEnv.config.MaxRedirect →
        out.1.redirection = none) :=
  postprocess_redirect_attached cutoffEnv (redirectedItem 301 1)
    { StatusCode := 301, Location := "http://ex/b".toList } rfl rfl rfl (by decide)

end postprocessor

namespace strings

theorem cut_ne_nil (sep : List Char) (k : Nat) (s : List Char) : Split.cut sep k s ≠ [] := by
  induction s generalizing k with
  | nil => cases k <;> simp [Split.cut]
  | cons c s ih =>
    cases k with
    | succ k => simpa [Split.cut] using ih k
    | zero =>
      simp only [Split.cut]
      split
      · simp
      · split <;> simp

theorem cut_skip (sep pre rest : List Char) :
    Split.cut sep pre.length (pre ++ rest) = Split.cut sep 0 rest := by
  induction pre with
  | nil => rfl
  | cons c pre ih => simpa [Split.cut] using ih

theorem NoStart.tail {sep : List Char} {c : Char} {e tail : List Char}
    (h : NoStart sep (c :: e) tail) : NoStart sep e tail :=
  fun t ht hs => h t ht (hs.trans (List.suffix_cons c e))

theorem cut_append_sep (d : Char) (sep e rest : List Char)
    (h : NoStart (d :: sep) e ((d :: sep) ++ rest)) :
    Split.cut (d :: sep) 0 (e ++ ((d :: sep) ++ rest)) = e :: Split.cut (d :: sep) 0 rest := by
  induction e with
  | nil =>
    have hp : HasPrefix (d :: (sep ++ rest)) (d :: sep) = true :=
      (hasPrefix_iff _ _).mpr (by simp)
    show Split.cut (d :: sep) 0 (d :: (sep ++ rest)) = _
    rw [Split.cut, if_pos hp]
    show [] :: Split.cut (d :: sep) sep.length (sep ++ rest) = _
    rw [cut_skip]
  | cons c e ih =>
    have hn : HasPrefix (c :: (e ++ ((d :: sep) ++ rest))) (d :: sep) = false := by
      cases hb : HasPrefix (c :: (e ++ ((d :: sep) ++ rest))) (d :: sep) with
      | false => rfl
      | true =>
        exfalso
        have := (hasPrefix_iff _ _).mp hb
        exact h (c :: e) (by simp) List.suffix_rfl (by simpa using this)
    show Split.cut (d :: sep) 0 (c :: (e ++ ((d :: sep) ++ rest))) = _
    rw [Split.cut, if_neg (by rw [hn]; decide), ih h.tail]

theorem cut_noSep (d : Char) (sep e : List Char) (h : NoStart (d :: sep) e []) :
    Split.cut (d :: sep) 0 e = [e] := by
  induction e with
  | nil => rfl
  | cons c e ih =>
    have hn : HasPrefix (c :: e) (d :: sep) = false := by
      cases hb : HasPrefix (c :: e) (d :: sep) with
      | false => rfl
      | true =>
        exfalso
        have := (hasPrefix_iff _ _).mp hb
        exact h (c :: e) (by simp) List.suffix_rfl (by simpa using this)
    rw [Split.cut, if_neg (by rw [hn]; decide), ih h.tail]

theorem noStart_single (c : Char) (e tail : List Char) (h : c ∉ e) : NoStart [c] e tail := by
  intro t ht hs hp
  cases t with
  | nil => exact ht rfl
  | cons x t =>
    rw [List.cons_append, List.cons_prefix_cons] at hp
    exact h (hs.subset (by simp [hp.1]))

theorem noStart_pair (a b : Char) (e tail : List Char)
    (h : ¬ [a, b] <:+: e) (ht : tail.head? ≠ some b) : NoStart [a, b] e tail := by
  intro t hne hs hp
  match t, hne, hs, hp with
  | [x], _, _, hp =>
    rw [List.singleton_append, List.cons_prefix_cons] at hp
    obtain ⟨_, hp2⟩ := hp
    cases tail with
    | nil => simp at hp2
    | cons y tail =>
      rw [List.cons_prefix_cons] at hp2
      exact ht (by simp [hp2.1])
  | x :: y :: t, _, hs, hp =>
    rw [List.cons_append, List.cons_append, List.cons_prefix_cons, List.cons_prefix_cons] at hp
    obtain ⟨h1, h2, _⟩ := hp
    apply h
    subst h1 h2
    exact (List.IsPrefix.isInfix (by simp)).trans hs.isInfix

end strings

namespace strings

theorem no_sep_cons {a b c : Char} {s : List Char} (hc : c ≠ a) (h : ¬ [a, b] <:+: s) :
    ¬ [a, b] <:+: c :: s := by
  rw [List.infix_cons_iff]
  rintro (hp | hi)
  · rw [List.cons_prefix_cons] at hp
    exact hc hp.1.symm
  · exact h hi

theorem no_sep_append {a b : Char} {x y : List Char} (hx : ¬ [a, b] <:+: x)
    (hy : ¬ [a, b] <:+: y) (hb : y.head? ≠ some b) : ¬ [a, b] <:+: x ++ y := by
  induction x with
  | nil => simpa using hy
  | cons c x ih =>
    rw [List.cons_append, List.infix_cons_iff]
    rintro (hp | hi)
    · rw [List.cons_prefix_cons] at hp
      obtain ⟨hac, hp2⟩ := hp
      cases x with
      | nil =>
        cases y with
        | nil => simp at hp2
        | cons z y =>
          rw [List.nil_append, List.cons_prefix_cons] at hp2
          exact hb (by simp [hp2.1])
      | cons z x =>
        rw [List.cons_append, List.cons_prefix_cons] at hp2
        apply hx
        subst hac
        rw [hp2.1]
        exact List.IsPrefix.isInfix (by simp)
    · exact ih (fun h => hx (List.infix_cons h)) hi

theorem intercalate_cons_cons (sep p q : List Char) (ps : List (List Char)) :
    sep.intercalate (p :: q :: ps) = p ++ (sep ++ sep.intercalate (q :: ps)) := by
  simp [List.intercalate, List.intersperse]

theorem cut_intercalate_pair (a b : Char) (hab : a ≠ b) (ps : List (List Char)) (hne : ps ≠ [])
    (h : ∀ p ∈ ps, ¬ [a, b] <:+: p) :
    Split.cut [a, b] 0 ([a, b].intercalate ps) = ps := by
  induction ps with
  | nil => exact absurd rfl hne
  | cons p ps ih =>
    cases ps with
    | nil =>
      have : [a, b].intercalate [p] = p := by simp [List.intercalate, List.intersperse]
      rw [this]
      exact cut_noSep a [b] p (noStart_pair a b p [] (h p (by simp)) (by simp))
    | cons q qs =>
      rw [intercalate_cons_cons, cut_append_sep a [b] p _
        (noStart_pair a b p _ (h p (by simp)) (by simpa using fun hba => hab hba)),
        ih (by simp) (fun r hr => h r (List.mem_cons_of_mem _ hr))]

theorem trim_brackets (u : List Char) (hne : u ≠ []) (h1 : '<' ∉ u) (h2 : '>' ∉ u) :
    Trim ('<' :: (u ++ ['>'])) "<>".toList = u := by
  have hcut : "<>".toList = ['<', '>'] := rfl
  have hin : ∀ c ∈ u, decide (c ∈ ['<', '>']) = false := by
    intro c hc
    simp only [List.mem_cons, List.mem_singleton, List.mem_nil_iff, or_false, decide_eq_false_iff_not]
    rintro (rfl | rfl)
    · exact h1 hc
    · exact h2 hc
  have hleft : TrimLeft ('<' :: (u ++ ['>'])) ['<', '>'] = u ++ ['>'] := by
    cases u with
    | nil => exact absurd rfl hne
    | cons c u =>
      have := hin c (by simp)
      rw [TrimLeft, List.dropWhile_cons_of_pos (by simp), List.cons_append,
        List.dropWhile_cons_of_neg (by rw [this]; decide)]
  rw [hcut, Trim, hleft, TrimRight, List.reverse_append]
  cases hr : u.reverse with
  | nil => exact absurd (List.reverse_eq_nil_iff.mp hr) hne
  | cons x xs =>
    have hx : x ∈ u := by
      have : x ∈ u.reverse := by rw [hr]; simp
      simpa using this
    have := hin x hx
    rw [List.reverse_cons, List.reverse_nil, List.nil_append, List.singleton_append,
      List.dropWhile_cons_of_pos (by simp), List.dropWhile_cons_of_neg (by rw [this]; decide),
      ← hr, List.reverse_reverse]

theorem trimSpace_id (u : List Char) (h1 : ∀ c, u.head? = some c → isSpace c = false)
    (h2 : ∀ c, u.getLast? = some c → isSpace c = false) : TrimSpace u = u := by
  have hl : u.dropWhile isSpace = u := by
    cases u with
    | nil => rfl
    | cons c u => rw [List.dropWhile_cons_of_neg (by rw [h1 c rfl]; decide)]
  rw [TrimSpace, hl]
  cases hr : u.reverse with
  | nil => simp [List.reverse_eq_nil_iff.mp hr]
  | cons x xs =>
    have hx : u.getLast? = some x := by
      rw [← List.head?_reverse, hr]; rfl
    rw [List.dropWhile_cons_of_neg (by rw [h2 x hx]; decide), ← hr, List.reverse_reverse]

end strings

namespace extractor

open strings

theorem attrs_flat_noSep (attrs : List (List Char)) (h : ∀ a ∈ attrs, ¬ [',', ' '] <:+: a) :
    ¬ [',', ' '] <:+: (attrs.map (fun a => ';' :: ' ' :: a)).flatten ∧
      ((attrs.map (fun a => ';' :: ' ' :: a)).flatten).head? ≠ some ' ' := by
  induction attrs with
  | nil => simp
  | cons a as ih =>
    obtain ⟨ih1, ih2⟩ := ih (fun x hx => h x (List.mem_cons_of_mem _ hx))
    constructor
    · rw [List.map_cons, List.flatten_cons]
      exact no_sep_append
        (no_sep_cons (by decide) (no_sep_cons (by decide) (h a (by simp)))) ih1 ih2
    · simp

theorem render_noSep (e : Entry) (h : e.wellFormed) : ¬ [',', ' '] <:+: e.render := by
  obtain ⟨_, _, _, _, hu, _, _, ha⟩ := h
  obtain ⟨hf1, _⟩ := attrs_flat_noSep e.attrs ha
  exact no_sep_cons (by decide)
    (no_sep_append hu (no_sep_cons (by decide) hf1) (by simp))

theorem render_split (e : Entry) (h : e.wellFormed) :
    ∃ tl, Split e.render ";".toList = ('<' :: (e.u ++ ['>'])) :: tl := by
  obtain ⟨_, _, _, hsemi, _, _, _, _⟩ := h
  have hs : ";".toList = [';'] := rfl
  have hp0 : ';' ∉ '<' :: (e.u ++ ['>']) := by
    simp only [List.mem_cons, List.mem_append, List.mem_singleton, List.mem_nil_iff, or_false,
      not_or]
    exact ⟨by decide, hsemi, by decide⟩
  rw [hs, Split, if_neg (by simp)]
  cases hat : e.attrs with
  | nil =>
    refine ⟨[], ?_⟩
    have : e.render = '<' :: (e.u ++ ['>']) := by simp [Entry.render, hat]
    rw [this]
    exact cut_noSep ';' [] _ (noStart_single ';' _ [] hp0)
  | cons a as =>
    have : e.render = ('<' :: (e.u ++ ['>'])) ++
        ([';'] ++ (' ' :: a ++ (as.map (fun a => ';' :: ' ' :: a)).flatten)) := by
      simp [Entry.render, hat]
    rw [this]
    exact ⟨_, cut_append_sep ';' [] _ _ (noStart_single ';' _ _ hp0)⟩

theorem loop_render (es : List Entry) (h : ∀ e ∈ es, e.wellFormed) (acc : List models.URL) :
    ExtractURLsFromHeader.loop (es.map Entry.render) acc =
      acc ++ es.map (fun e => ({ Raw := e.u } : models.URL)) := by
  induction es generalizing acc with
  | nil => simp [ExtractURLsFromHeader.loop]
  | cons e es ih =>
    have hw := h e (by simp)
    obtain ⟨tl, htl⟩ := render_split e hw
    obtain ⟨hne, h1, h2, _, _, h5, h6, _⟩ := hw
    have htrim : TrimSpace (Trim ('<' :: (e.u ++ ['>'])) "<>".toList) = e.u := by
      rw [trim_brackets e.u hne h1 h2, trimSpace_id e.u h5 h6]
    rw [List.map_cons, ExtractURLsFromHeader.loop, htl]
    simp only [htrim, if_neg hne]
    rw [ih (fun x hx => h x (List.mem_cons_of_mem _ hx))]
    simp

theorem renderHeader_ne_nil (es : List Entry) (hne : es ≠ []) : renderHeader es ≠ [] := by
  cases es with
  | nil => exact absurd rfl hne
  | cons e es =>
    cases es with
    | nil => simp [renderHeader, List.intercalate, List.intersperse, Entry.render]
    | cons f fs =>
      rw [renderHeader, List.map_cons, List.map_cons, intercalate_cons_cons]
      simp [Entry.render]

/-- C6. For a Link header made of one or more well-formed entries joined by
`, `, `ExtractURLsFromHeader` returns exactly one URL per entry, in header
order, whose `Raw` is that entry's `u`. -/
theorem extract_wellFormed_header (URL : models.URL) (r : models.Response) (es : List Entry)
    (hr : URL.response = some r) (hl : r.Link = renderHeader es) (hne : es ≠ [])
    (hwf : ∀ e ∈ es, e.wellFormed) :
    ExtractURLsFromHeader URL = some (es.map (fun e => ({ Raw := e.u } : models.URL))) := by
  have hs : ", ".toList = [',', ' '] := rfl
  have hsplit : Split (renderHeader es) ", ".toList = es.map Entry.render := by
    rw [hs, Split, if_neg (by simp), renderHeader, hs]
    apply cut_intercalate_pair ',' ' ' (by decide) _ (by simpa using hne)
    intro p hp
    obtain ⟨e, he, rfl⟩ := List.mem_map.mp hp
    exact render_noSep e (hwf e he)
  simp only [ExtractURLsFromHeader, hr, hl, if_neg (renderHeader_ne_nil es hne), hsplit,
    loop_render es hwf [], List.nil_append]

/-- Witness of `extract_wellFormed_header`: the header
`<http://a/>; rel="next", <http://b/>; rel="prev"` yields `http://a/` then
`http://b/`. -/
theorem extract_wellFormed_header_witness :
    renderHeader specEntries = "<http://a/>; rel=\"next\", <http://b/>; rel=\"prev\"".toList ∧
      ExtractURLsFromHeader (withLink (renderHeader specEntries)) =
        some [{ Raw := "http://a/".toList }, { Raw := "http://b/".toList }] :=
  ⟨by decide, extract_wellFormed_header (withLink (renderHeader specEntries))
    { StatusCode := 200, Link := renderHeader specEntries } specEntries rfl rfl (by decide)
    (by decide)⟩

end extractor

namespace strings

theorem cut_sub (sep : List Char) (k : Nat) (s : List Char) :
    ∃ p ps, Split.cut sep k s = p :: ps ∧ p <+: s.drop k ∧ ∀ q ∈ ps, q <:+: s.drop k := by
  induction s generalizing k with
  | nil => exact ⟨[], [], by cases k <;> rfl, by simp, by simp⟩
  | cons c s ih =>
    cases k with
    | succ k =>
      obtain ⟨p, ps, h1, h2, h3⟩ := ih k
      exact ⟨p, ps, by rw [Split.cut, h1], by simpa using h2, by simpa using h3⟩
    | zero =>
      by_cases hp : HasPrefix (c :: s) sep = true
      · obtain ⟨p, ps, h1, h2, h3⟩ := ih (sep.length - 1)
        refine ⟨[], p :: ps, by rw [Split.cut, if_pos hp, h1], by simp, ?_⟩
        have hsuf : s.drop (sep.length - 1) <:+: c :: s :=
          ((List.drop_suffix _ _).trans (List.suffix_cons c s)).isInfix
        intro q hq
        rw [List.drop_zero]
        rcases List.mem_cons.mp hq with rfl | hq
        · exact h2.isInfix.trans hsuf
        · exact (h3 q hq).trans hsuf
      · obtain ⟨p, ps, h1, h2, h3⟩ := ih 0
        rw [List.drop_zero] at h2 h3
        refine ⟨c :: p, ps, by rw [Split.cut, if_neg hp, h1], ?_, ?_⟩
        · rw [List.drop_zero, List.cons_prefix_cons]
          exact ⟨rfl, h2⟩
        · intro q hq
          rw [List.drop_zero]
          exact List.infix_cons (h3 q hq)

theorem split_sub (s sep : List Char) (hsep : sep ≠ []) :
    ∀ q ∈ Split s sep, q <:+: s := by
  obtain ⟨p, ps, h1, h2, h3⟩ := cut_sub sep 0 s
  rw [List.drop_zero] at h2 h3
  intro q hq
  rw [Split, if_neg hsep, h1] at hq
  rcases List.mem_cons.mp hq with rfl | hq
  · exact h2.isInfix
  · exact h3 q hq

theorem split_head_pre (s sep : List Char) (hsep : sep ≠ []) :
    (Split s sep).headD [] <+: s := by
  obtain ⟨p, ps, h1, h2, _⟩ := cut_sub sep 0 s
  rw [Split, if_neg hsep, h1]
  simpa using h2

theorem trim_sub (s cutset : List Char) : Trim s cutset <:+: s := by
  have h1 : TrimLeft s cutset <:+ s := List.dropWhile_suffix _
  have h2 : Trim s cutset <+: TrimLeft s cutset := by
    rw [Trim, TrimRight, ← List.reverse_suffix, List.reverse_reverse]
    exact List.dropWhile_suffix _
  exact h2.isInfix.trans h1.isInfix

theorem trimSpace_sub (s : List Char) : TrimSpace s <:+: s := by
  have h1 : s.dropWhile isSpace <:+ s := List.dropWhile_suffix _
  have h2 : TrimSpace s <+: s.dropWhile isSpace := by
    rw [TrimSpace, ← List.reverse_suffix, List.reverse_reverse]
    exact List.dropWhile_suffix _
  exact h2.isInfix.trans h1.isInfix

end strings

namespace extractor

open strings

theorem entryURL_sub (link : List Char) : entryURL link <:+: link :=
  ((trimSpace_sub _).trans (trim_sub _ _)).trans
    (split_head_pre link ";".toList (by decide)).isInfix

theorem loop_eq_filter (links : List (List Char)) (acc : List models.URL) :
    ExtractURLsFromHeader.loop links acc =
      acc ++ ((links.map entryURL).filter (fun x => decide (x ≠ []))).map
        (fun x => ({ Raw := x } : models.URL)) := by
  induction links generalizing acc with
  | nil => simp [ExtractURLsFromHeader.loop]
  | cons link links ih =>
    rw [ExtractURLsFromHeader.loop]
    cases hs : Split link ";".toList with
    | nil =>
      have : entryURL link = [] := by rw [entryURL, hs]; rfl
      simp [ih, this]
    | cons part0 attrs =>
      have he : entryURL link = TrimSpace (Trim part0 "<>".toList) := by rw [entryURL, hs]; rfl
      simp only [← he]
      by_cases hz : entryURL link = []
      · simp [ih, hz]
      · simp [ih, hz]

/-- C7, counterexample. The header `http://a/` has no `<` and no `>`, yet
`ExtractURLsFromHeader` returns a URL for it, with `Raw` = `http://a/`:
`<http://a/>` is not a substring of the header. -/
theorem extract_without_brackets :
    ExtractURLsFromHeader (withLink "http://a/".toList) = some [{ Raw := "http://a/".toList }] ∧
      '<' ∉ "http://a/".toList ∧ '>' ∉ "http://a/".toList ∧
      ¬ ('<' :: ("http://a/".toList ++ ['>'])) <:+: "http://a/".toList := by
  refine ⟨by decide, by decide, by decide, by decide⟩

/-- C7, amended. For every Link header value, `ExtractURLsFromHeader` returns
one URL for each `, `-separated entry whose trimmed first part (the text
before the first `;`, without leading and trailing `<`, `>` and then
surrounding white space) is non-empty, in header order, with `Raw` equal to
that text; every returned `Raw` is non-empty and is a substring of the
header. An entry yields no URL only when that text is empty. -/
theorem extract_raw_trimmed (URL : models.URL) (r : models.Response)
    (hr : URL.response = some r) :
    ∃ out, ExtractURLsFromHeader URL = some out ∧
      out.map (fun x => x.Raw) =
        ((Split r.Link ", ".toList).map entryURL).filter (fun x => decide (x ≠ [])) ∧
      ∀ x ∈ out, x.Raw ≠ [] ∧ x.Raw <:+: r.Link := by
  have hout : ExtractURLsFromHeader URL =
      some ((((Split r.Link ", ".toList).map entryURL).filter (fun x => decide (x ≠ []))).map
        (fun x => ({ Raw := x } : models.URL))) := by
    simp only [ExtractURLsFromHeader, hr]
    by_cases hl : r.Link = []
    · rw [if_pos hl, hl]
      decide
    · rw [if_neg hl, loop_eq_filter, List.nil_append]
  refine ⟨_, hout, ?_, ?_⟩
  · rw [List.map_map]
    exact (List.map_congr_left (fun _ _ => rfl)).trans (List.map_id _)
  · intro x hx
    obtain ⟨raw, hraw, rfl⟩ := List.mem_map.mp hx
    obtain ⟨hmem, hne⟩ := List.mem_filter.mp hraw
    obtain ⟨link, hlink, rfl⟩ := List.mem_map.mp hmem
    exact ⟨by simpa using hne,
      (entryURL_sub link).trans (split_sub r.Link ", ".toList (by decide) link hlink)⟩

/-- Witness of `extract_raw_trimmed`: the header `http://a/, <>, <b>; rel=x`. -/
theorem extract_raw_trimmed_witness :
    ∃ out, ExtractURLsFromHeader (withLink "http://a/, <>, <b>; rel=x".toList) = some out ∧
      out.map (fun x => x.Raw) = ["http://a/".toList, "b".toList] ∧
      ∀ x ∈ out, x.Raw ≠ [] ∧ x.Raw <:+: "http://a/, <>, <b>; rel=x".toList :=
  (extract_raw_trimmed (withLink "http://a/, <>, <b>; rel=x".toList)
    { StatusCode := 200, Link := "http://a/, <>, <b>; rel=x".toList } rfl).imp
    (fun _ h => ⟨h.1, h.2.1.trans (by decide), h.2.2⟩)

end extractor

namespace hq

theorem discover_eq_map (urlString : models.URL → String) (URLsType : models.URLType)
    (URLs : List models.URL) (acc : List gocrawlhq.URL) :
    SeencheckURLs.discover urlString URLsType URLs acc =
      acc ++ URLs.map (fun u => { Value := urlString u, Type_ := typeString URLsType }) := by
  induction URLs generalizing acc with
  | nil => simp [SeencheckURLs.discover]
  | cons u us ih => simp [SeencheckURLs.discover, ih]

theorem found_iff (s : String) (outputURLs : List gocrawlhq.URL) :
    SeencheckURLs.found s outputURLs = true ↔ ∃ o ∈ outputURLs, s = o.Value := by
  induction outputURLs with
  | nil => simp [SeencheckURLs.found]
  | cons o os ih =>
    rw [SeencheckURLs.found]
    by_cases h : s = o.Value
    · simp [h]
    · simp [h, ih]

theorem keep_eq_filter (urlString : models.URL → String) (outputURLs : List gocrawlhq.URL)
    (URLs acc : List models.URL) :
    SeencheckURLs.keep urlString outputURLs URLs acc =
      acc ++ URLs.filter (fun u => decide (∃ o ∈ outputURLs, urlString u = o.Value)) := by
  induction URLs generalizing acc with
  | nil => simp [SeencheckURLs.keep]
  | cons u us ih =>
    rw [SeencheckURLs.keep, ih]
    by_cases h : ∃ o ∈ outputURLs, urlString u = o.Value
    · have hf := (found_iff (urlString u) outputURLs).mpr h
      rw [List.filter_cons_of_pos (by simpa using h)]
      simp [hf]
    · have hf : SeencheckURLs.found (urlString u) outputURLs = false := by
        cases hb : SeencheckURLs.found (urlString u) outputURLs with
        | false => rfl
        | true => exact absurd ((found_iff _ _).mp hb) h
      rw [List.filter_cons_of_neg (by simpa using h)]
      simp [hf]

/-- C8. When the coordinator's Seencheck call fails, `SeencheckURLs` returns
the input URLs, all of them and in input order, together with the error. -/
theorem seencheck_fails_open (urlString : models.URL → String)
    (Seencheck : List gocrawlhq.URL → Except String (Option (List gocrawlhq.URL)))
    (URLsType : models.URLType) (URLs : List models.URL) (err : String)
    (h : Seencheck (URLs.map
      (fun u => { Value := urlString u, Type_ := typeString URLsType })) = .error err) :
    SeencheckURLs urlString Seencheck URLsType URLs = (URLs, some err) := by
  simp [SeencheckURLs, discover_eq_map, h]

/-- Witness of `seencheck_fails_open`: a coordinator that is down. -/
theorem seencheck_fails_open_witness :
    SeencheckURLs rawString (fun _ => .error "down") .URLTypeAsset abc = (abc, some "down") :=
  seencheck_fails_open rawString (fun _ => .error "down") .URLTypeAsset abc "down" rfl

/-- C9. When the coordinator's Seencheck call succeeds, `SeencheckURLs`
returns a nil error and, in input order, exactly the input URLs whose string
value is the `Value` of some URL of the response: a sub-list of the input,
empty when the response is nil or empty. -/
theorem seencheck_ok_filter (urlString : models.URL → String)
    (Seencheck : List gocrawlhq.URL → Except String (Option (List gocrawlhq.URL)))
    (URLsType : models.URLType) (URLs : List models.URL)
    (outputURLs : Option (List gocrawlhq.URL))
    (h : Seencheck (URLs.map
      (fun u => { Value := urlString u, Type_ := typeString URLsType })) = .ok outputURLs) :
    (SeencheckURLs urlString Seencheck URLsType URLs).2 = none ∧
      (SeencheckURLs urlString Seencheck URLsType URLs).1 =
        URLs.filter (fun u => decide (∃ o ∈ outputURLs.getD [], urlString u = o.Value)) ∧
      (SeencheckURLs urlString Seencheck URLsType URLs).1.Sublist URLs ∧
      (outputURLs.getD [] = [] → (SeencheckURLs urlString Seencheck URLsType URLs).1 = []) := by
  have hres : SeencheckURLs urlString Seencheck URLsType URLs =
      (URLs.filter (fun u => decide (∃ o ∈ outputURLs.getD [], urlString u = o.Value)),
        none) := by
    cases outputURLs with
    | none => simp [SeencheckURLs, discover_eq_map, h]
    | some outs => simp [SeencheckURLs, discover_eq_map, h, keep_eq_filter]
  rw [hres]
  refine ⟨rfl, rfl, List.filter_sublist _, ?_⟩
  intro he
  simp [he]

/-- Witness of `seencheck_ok_filter`: of `a`, `b`, `c` the coordinator
answers `c`, `x`, `a`; the result is `a`, `c`. -/
theorem seencheck_ok_filter_witness :
    (SeencheckURLs rawString
        (fun _ => .ok (some [⟨"c", "asset"⟩, ⟨"x", "asset"⟩, ⟨"a", "asset"⟩]))
        .URLTypeAsset abc).1 = [{ Raw := "a".toList }, { Raw := "c".toList }] :=
  (seencheck_ok_filter rawString
    (fun _ => .ok (some [⟨"c", "asset"⟩, ⟨"x", "asset"⟩, ⟨"a", "asset"⟩]))
    .URLTypeAsset abc _ rfl).2.1.trans (by decide)

end hq

namespace lq

theorem addURL_stored (t : Table) (arg : sqlc_model.AddURLParams)
    (h : arg.Value ∈ t.map Row.value) : AddURL t arg = .error uniqueValueErr := by
  rw [AddURL, if_pos h]

theorem addURL_ok (t t1 : Table) (arg : sqlc_model.AddURLParams) (h : AddURL t arg = .ok t1) :
    arg.Value ∉ t.map Row.value ∧
      t1.map Row.value = t.map Row.value ++ [arg.Value] := by
  unfold AddURL at h
  split at h
  · cases h
  · split at h
    · cases h
    · rename_i hv _
      cases h
      exact ⟨hv, by simp⟩

theorem addURL_error (t : Table) (arg : sqlc_model.AddURLParams) (e : String)
    (h : AddURL t arg = .error e) (he : e = uniqueValueErr) : arg.Value ∈ t.map Row.value := by
  unfold AddURL at h
  split at h
  · assumption
  · split at h
    · cases h
      exact absurd he (by decide)
    · cases h

theorem loop_stored_step (env : AddEnv) (i : Nat) (url : sqlc_model.Url)
    (urls : List sqlc_model.Url) (tx : Table) (h : url.Value ∈ tx.map Row.value) :
    Add.loop env i (url :: urls) tx = Add.loop env (i + 1) urls tx := by
  rw [Add.loop]
  rw [addURL_stored tx _ h]
  simp

theorem loop_all_stored (env : AddEnv) (i : Nat) (urls : List sqlc_model.Url) (tx : Table)
    (h : ∀ u ∈ urls, u.Value ∈ tx.map Row.value) : Add.loop env i urls tx = .ok tx := by
  induction urls generalizing i with
  | nil => rfl
  | cons u us ih =>
    rw [loop_stored_step env i u us tx (h u (by simp))]
    exact ih (i + 1) (fun x hx => h x (List.mem_cons_of_mem _ hx))

theorem loop_inv (env : AddEnv) (i : Nat) (urls : List sqlc_model.Url) (tx tx1 : Table)
    (hnd : (tx.map Row.value).Nodup) (h : Add.loop env i urls tx = .ok tx1) :
    (tx1.map Row.value).Nodup ∧ (∀ v ∈ tx.map Row.value, v ∈ tx1.map Row.value) ∧
      ∀ u ∈ urls, u.Value ∈ tx1.map Row.value := by
  induction urls generalizing i tx with
  | nil =>
    rw [Add.loop] at h
    cases h
    exact ⟨hnd, fun _ hv => hv, by simp⟩
  | cons u us ih =>
    rw [Add.loop] at h
    cases ha : AddURL tx ⟨if u.ID = "" then env.uuid i else u.ID, u.Value, u.Via, u.Hops⟩ with
    | error err =>
      rw [ha] at h
      dsimp only at h
      by_cases he : err = uniqueValueErr
      · rw [if_pos he] at h
        obtain ⟨h1, h2, h3⟩ := ih (i + 1) tx hnd h
        refine ⟨h1, h2, ?_⟩
        intro x hx
        rcases List.mem_cons.mp hx with rfl | hx
        · exact h2 _ (addURL_error tx _ err ha he)
        · exact h3 x hx
      · rw [if_neg he] at h
        cases h
    | ok tx2 =>
      rw [ha] at h
      dsimp only at h
      obtain ⟨hv, hmap⟩ := addURL_ok tx tx2 _ ha
      have hnd2 : (tx2.map Row.value).Nodup := by
        rw [hmap]
        exact List.Nodup.append hnd (List.nodup_singleton _) (by simpa using hv)
      obtain ⟨h1, h2, h3⟩ := ih (i + 1) tx2 hnd2 h
      refine ⟨h1, fun v hv1 => h2 v (by rw [hmap]; simp [hv1]), ?_⟩
      intro x hx
      rcases List.mem_cons.mp hx with rfl | hx
      · exact h2 _ (by rw [hmap]; simp)
      · exact h3 x hx

theorem add_cases (db : Table) (env : AddEnv) (urls : List sqlc_model.Url) (b : Bool) :
    (Add db env urls b).1 = db ∨
      ∃ tx, Add.loop env 0 urls db = .ok tx ∧ Add db env urls b = (tx, none) := by
  unfold Add
  cases env.beginErr with
  | some e => exact Or.inl rfl
  | none =>
    cases hl : Add.loop env 0 urls db with
    | error e => exact Or.inl rfl
    | ok tx =>
      cases env.commitErr with
      | some e => exact Or.inl rfl
      | none => exact Or.inr ⟨tx, rfl, rfl⟩

theorem add_nodup (db : Table) (env : AddEnv) (urls : List sqlc_model.Url) (b : Bool)
    (hnd : (db.map Row.value).Nodup) : ((Add db env urls b).1.map Row.value).Nodup := by
  rcases add_cases db env urls b with h | ⟨tx, hl, h⟩
  · rw [h]; exact hnd
  · rw [h]; exact (loop_inv env 0 urls db tx hnd hl).1

theorem addSeq_nodup (calls : List Call) (db : Table) (hnd : (db.map Row.value).Nodup) :
    ((AddSeq db calls).map Row.value).Nodup := by
  induction calls generalizing db with
  | nil => exact hnd
  | cons c cs ih => exact ih _ (add_nodup db c.env c.urls c.bypassSeencheck hnd)

theorem add_ok_stored (db db1 : Table) (env : AddEnv) (urls : List sqlc_model.Url) (b : Bool)
    (hnd : (db.map Row.value).Nodup) (h : Add db env urls b = (db1, none)) :
    (db1.map Row.value).Nodup ∧ ∀ u ∈ urls, u.Value ∈ db1.map Row.value := by
  unfold Add at h
  cases hb : env.beginErr with
  | some e => rw [hb] at h; cases h
  | none =>
    rw [hb] at h
    cases hl : Add.loop env 0 urls db with
    | error e => rw [hl] at h; cases h
    | ok tx =>
      rw [hl] at h
      cases hc : env.commitErr with
      | some e => rw [hc] at h; cases h
      | none =>
        rw [hc] at h
        cases h
        exact ⟨(loop_inv env 0 urls db _ hnd hl).1, (loop_inv env 0 urls db _ hnd hl).2.2⟩

theorem add_all_stored (db : Table) (env : AddEnv) (urls : List sqlc_model.Url) (b : Bool)
    (hb : env.beginErr = none) (hc : env.commitErr = none)
    (h : ∀ u ∈ urls, u.Value ∈ db.map Row.value) : Add db env urls b = (db, none) := by
  simp [Add, hb, hc, loop_all_stored env 0 urls db h]

theorem add_one_ok (db : Table) (env : AddEnv) (u : sqlc_model.Url) (b : Bool)
    (hb : env.beginErr = none) (hc : env.commitErr = none)
    (hid : (if u.ID = "" then env.uuid 0 else u.ID) ∉ db.map Row.id) :
    (Add db env [u] b).2 = none := by
  by_cases hv : u.Value ∈ db.map Row.value
  · rw [add_all_stored db env [u] b hb hc (by simpa using hv)]
  · simp [Add, hb, hc, Add.loop, AddURL, hv, hid]

end lq

namespace lq

/-- C10. On a table whose values are pairwise distinct (the schema's UNIQUE
constraint; the empty table is one): a URL whose value is already stored is
skipped by the loop of `Add` without error and inserts nothing, and a batch
of such URLs leaves the table unchanged with a nil error; after any sequence
of `Add` calls every value that is stored has exactly one row, and every URL
of a call that returned no error has exactly one row; `Add([u])` followed
by `Add([u])` returns no error twice and leaves exactly one row for `u`
(when `Begin` and `Commit` succeed and the id given to `u` is not taken). -/
theorem add_dedup (db : Table) (hnd : (db.map Row.value).Nodup) :
    (∀ (env : AddEnv) (i : Nat) (url : sqlc_model.Url) (urls : List sqlc_model.Url),
        url.Value ∈ db.map Row.value →
        Add.loop env i (url :: urls) db = Add.loop env (i + 1) urls db) ∧
    (∀ (env : AddEnv) (urls : List sqlc_model.Url) (b : Bool),
        env.beginErr = none → env.commitErr = none →
        (∀ u ∈ urls, u.Value ∈ db.map Row.value) → Add db env urls b = (db, none)) ∧
    (∀ (calls : List Call) (v : String),
        v ∈ (AddSeq db calls).map Row.value → rowsFor (AddSeq db calls) v = 1) ∧
    (∀ (env : AddEnv) (urls : List sqlc_model.Url) (b : Bool) (db1 : Table),
        Add db env urls b = (db1, none) → ∀ u ∈ urls, rowsFor db1 u.Value = 1) ∧
    (∀ (env1 env2 : AddEnv) (u : sqlc_model.Url) (b1 b2 : Bool),
        env1.beginErr = none → env1.commitErr = none →
        env2.beginErr = none → env2.commitErr = none →
        (if u.ID = "" then env1.uuid 0 else u.ID) ∉ db.map Row.id →
        (Add db env1 [u] b1).2 = none ∧
        Add (Add db env1 [u] b1).1 env2 [u] b2 = ((Add db env1 [u] b1).1, none) ∧
        rowsFor (Add (Add db env1 [u] b1).1 env2 [u] b2).1 u.Value = 1) := by
  refine ⟨fun env i url urls h => loop_stored_step env i url urls db h,
    fun env urls b hb hc h => add_all_stored db env urls b hb hc h,
    fun calls v hv => List.count_eq_one_of_mem (addSeq_nodup calls db hnd) hv,
    fun env urls b db1 h u hu => ?_, ?_⟩
  · obtain ⟨h1, h2⟩ := add_ok_stored db db1 env urls b hnd h
    exact List.count_eq_one_of_mem h1 (h2 u hu)
  · intro env1 env2 u b1 b2 hb1 hc1 hb2 hc2 hid
    have hok := add_one_ok db env1 u b1 hb1 hc1 hid
    have heq : Add db env1 [u] b1 = ((Add db env1 [u] b1).1, none) := by
      rw [← hok]
    obtain ⟨h1, h2⟩ := add_ok_stored db _ env1 [u] b1 hnd heq
    have hsec := add_all_stored (Add db env1 [u] b1).1 env2 [u] b2 hb2 hc2
      (fun x hx => by
        rw [List.mem_singleton.mp hx]
        exact h2 u (by simp))
    refine ⟨hok, hsec, ?_⟩
    rw [hsec]
    exact List.count_eq_one_of_mem h1 (h2 u (by simp))

/-- Witness of `add_dedup`: on the empty table, `Add([{value: u}])` twice
returns no error twice and leaves one row for `u`. -/
theorem add_dedup_witness :
    (Add [] (okEnv 0) [{ Value := "u" }] false).2 = none ∧
      Add (Add [] (okEnv 0) [{ Value := "u" }] false).1 (okEnv 1) [{ Value := "u" }] false =
        ((Add [] (okEnv 0) [{ Value := "u" }] false).1, none) ∧
      rowsFor (Add (Add [] (okEnv 0) [{ Value := "u" }] false).1 (okEnv 1)
        [{ Value := "u" }] false).1 "u" = 1 :=
  (add_dedup [] List.nodup_nil).2.2.2.2 (okEnv 0) (okEnv 1) { Value := "u" } false false
    rfl rfl rfl rfl (by simp)

end lq

namespace models

theorem children_append (call : Option Ptr → List Ptr → Except Fault (List Ptr))
    (f : Option Ptr → List Ptr) (cs : List (Option Ptr)) (result : List Ptr)
    (hc : ∀ c ∈ cs, ∀ r, call c r = .ok (r ++ f c)) :
    Item.GetNodesAtLevel.children call cs result = .ok (result ++ cs.flatMap f) := by
  induction cs generalizing result with
  | nil => simp [Item.GetNodesAtLevel.children]
  | cons c cs ih =>
    rw [Item.GetNodesAtLevel.children, hc c (by simp)]
    dsimp only
    rw [ih _ (fun x hx => hc x (List.mem_cons_of_mem _ hx))]
    simp

theorem recursive_level (h : Heap) (target : Int) (n : Nat) :
    ∀ (fuel : Nat) (p : Ptr) (cur : Int) (result : List Ptr), n + 1 ≤ fuel →
      target = cur + n →
      Item.GetNodesAtLevel.recursive h target fuel (some p) cur result =
        .ok (result ++ levelNodes h n p) := by
  induction n with
  | zero =>
    intro fuel p cur result hf ht
    obtain ⟨k, rfl⟩ : ∃ k, fuel = k + 1 := ⟨fuel - 1, by omega⟩
    have : cur = target := by simp [ht]
    rw [Item.GetNodesAtLevel.recursive, if_pos this]
    rfl
  | succ n ih =>
    intro fuel p cur result hf ht
    obtain ⟨k, rfl⟩ : ∃ k, fuel = k + 1 := ⟨fuel - 1, by omega⟩
    have hne : ¬ cur = target := by
      rw [ht]; push_cast; omega
    rw [Item.GetNodesAtLevel.recursive, if_neg hne]
    apply children_append
    intro c _ r
    cases c with
    | none =>
      obtain ⟨j, rfl⟩ : ∃ j, k = j + 1 := ⟨k - 1, by omega⟩
      simp [Item.GetNodesAtLevel.recursive]
    | some q =>
      exact ih k q (cur + 1) r (by omega) (by rw [ht]; push_cast; ring)

theorem recursive_never (h : Heap) (target : Int) (D : Nat) :
    ∀ (fuel : Nat) (p : Ptr) (cur : Int) (result : List Ptr), D + 1 ≤ fuel →
      levelNodes h D p = [] → target < cur →
      Item.GetNodesAtLevel.recursive h target fuel (some p) cur result = .ok result := by
  induction D with
  | zero =>
    intro fuel p cur result _ hl
    simp [levelNodes] at hl
  | succ D ih =>
    intro fuel p cur result hf hl ht
    obtain ⟨k, rfl⟩ : ∃ k, fuel = k + 1 := ⟨fuel - 1, by omega⟩
    have hne : ¬ cur = target := by omega
    rw [Item.GetNodesAtLevel.recursive, if_neg hne]
    have key := children_append
      (fun child result =>
        Item.GetNodesAtLevel.recursive h target k child (cur + 1) result)
      (fun _ => []) (h p).children result (by
        intro c hc r
        cases c with
        | none =>
          obtain ⟨j, rfl⟩ : ∃ j, k = j + 1 := ⟨k - 1, by omega⟩
          simp [Item.GetNodesAtLevel.recursive]
        | some q =>
          have hq : levelNodes h D q = [] := by
            rw [levelNodes] at hl
            exact List.flatMap_eq_nil_iff.mp hl (some q) hc
          simpa using ih k q (cur + 1) r (by omega) hq (by omega))
    rw [key]
    simp

theorem ancestor_succ_top (h : Heap) (n : Nat) (x : Ptr) :
    ancestor h (n + 1) x =
      match ancestor h n x with
      | none => none
      | some q => (h q).parent := by
  induction n generalizing x with
  | zero =>
    simp only [ancestor]
    cases (h x).parent <;> rfl
  | succ n ih =>
    rw [ancestor]
    cases hp : (h x).parent with
    | none => simp [ancestor, hp]
    | some q =>
      dsimp only
      rw [ih q]
      conv_rhs => rw [ancestor, hp]

theorem levelNodes_ancestor (h : Heap)
    (hpar : ∀ p q, some q ∈ (h p).children → (h q).parent = some p) (n : Nat) :
    ∀ p x, x ∈ levelNodes h n p → ancestor h n x = some p := by
  induction n with
  | zero =>
    intro p x hx
    simp [levelNodes] at hx
    simp [ancestor, hx]
  | succ n ih =>
    intro p x hx
    rw [levelNodes, List.mem_flatMap] at hx
    obtain ⟨c, hc, hxc⟩ := hx
    cases c with
    | none => simp at hxc
    | some q =>
      rw [ancestor_succ_top, ih q x hxc]
      exact hpar p q hc

theorem levelNodes_nodup (h : Heap) (hw : wellLinked h) (n : Nat) :
    ∀ p, (levelNodes h n p).Nodup := by
  have hpar : ∀ p q, some q ∈ (h p).children → (h q).parent = some p :=
    fun p q hq => (hw p).2 q hq
  induction n with
  | zero => intro p; simp [levelNodes]
  | succ n ih =>
    intro p
    rw [levelNodes, List.nodup_flatMap]
    constructor
    · intro c _
      cases c with
      | none => simp
      | some q => exact ih q
    · refine List.Pairwise.imp_of_mem ?_ (hw p).1
      intro c1 c2 _ _ hne
      cases c1 with
      | none => simp [Function.onFun]
      | some q1 =>
        cases c2 with
        | none => simp [Function.onFun]
        | some q2 =>
          simp only [Function.onFun]
          intro x hx1 hx2
          have h1 := levelNodes_ancestor h hpar n q1 x hx1
          have h2 := levelNodes_ancestor h hpar n q2 x hx2
          rw [h1] at h2
          exact hne h2

theorem treeHeap_wellLinked : wellLinked treeHeap := by
  intro p
  match p with
  | 0 => exact ⟨by decide, fun q hq => by
      simp [treeHeap, mkItem] at hq
      rcases hq with rfl | rfl <;> rfl⟩
  | 1 => exact ⟨by decide, fun q hq => by
      simp [treeHeap, mkItem] at hq
      rcases hq with rfl | rfl <;> rfl⟩
  | 2 => exact ⟨by decide, fun q hq => by simp [treeHeap, mkItem] at hq⟩
  | 3 => exact ⟨by decide, fun q hq => by simp [treeHeap, mkItem] at hq⟩
  | n + 4 => exact ⟨by simp [treeHeap, mkItem], fun q hq => by simp [treeHeap, mkItem] at hq⟩

end models

namespace models

/-- C11. `GetNodesAtLevel` returns `ErrNotASeed` with a nil list when the
receiver is not a seed, whatever the level and the fuel; on a seed every
result it returns has a nil error, it returns for every level `n ≥ 0`
(deeper than the tree or not), and for every negative level when the tree
below the seed is finite (no item `D` child links below it). -/
theorem getNodesAtLevel_errNotASeed (h : Heap) (i : Ptr) :
    ((h i).seed = false →
      ∀ (fuel : Nat) (n : Int), Item.GetNodesAtLevel h fuel i n = .ok ([], some ErrNotASeed)) ∧
    ((h i).seed = true →
      ∀ (fuel : Nat) (n : Int) (nodes : List Ptr) (err : Option String),
        Item.GetNodesAtLevel h fuel i n = .ok (nodes, err) → err = none) ∧
    ((h i).seed = true →
      ∀ (n : Nat) (fuel : Nat), n + 1 ≤ fuel →
        ∃ nodes, Item.GetNodesAtLevel h fuel i n = .ok (nodes, none)) ∧
    ((h i).seed = true →
      ∀ (D : Nat), levelNodes h D i = [] → ∀ (n : Int) (fuel : Nat), n < 0 → D + 1 ≤ fuel →
        Item.GetNodesAtLevel h fuel i n = .ok ([], none)) := by
  refine ⟨fun hs fuel n => by simp [Item.GetNodesAtLevel, hs], ?_, ?_, ?_⟩
  · intro hs fuel n nodes err hr
    simp only [Item.GetNodesAtLevel, hs, Bool.not_true, Bool.false_eq_true, if_false] at hr
    cases hrec : Item.GetNodesAtLevel.recursive h n fuel (some i) 0 [] with
    | error e => rw [hrec] at hr; cases hr
    | ok r =>
      rw [hrec] at hr
      cases hr
      rfl
  · intro hs n fuel hf
    refine ⟨levelNodes h n i, ?_⟩
    simp [Item.GetNodesAtLevel, hs, recursive_level h n n fuel i 0 [] hf (by simp)]
  · intro hs D hD n fuel hn hf
    simp [Item.GetNodesAtLevel, hs, recursive_never h n D fuel i 0 [] hf hD hn]

/-- Witness of `getNodesAtLevel_errNotASeed`: in `treeHeap`, item 1 is not a
seed; the seed 0 has nobody three child links below it, and level -1 gives the
empty list with a nil error. -/
theorem getNodesAtLevel_errNotASeed_witness :
    Item.GetNodesAtLevel treeHeap 4 1 2 = .ok ([], some ErrNotASeed) ∧
      Item.GetNodesAtLevel treeHeap 4 0 (-1) = .ok ([], none) :=
  ⟨(getNodesAtLevel_errNotASeed treeHeap 1).1 rfl 4 2,
    (getNodesAtLevel_errNotASeed treeHeap 0).2.2.2 rfl 3 (by decide) (-1) 4 (by decide)
      (by decide)⟩

/-- C12. For a seed `s` and a level `n ≥ 0`, `GetNodesAtLevel(n)` returns,
with a nil error, the items reached from `s` by following `n` child links, in
the left-to-right depth-first order of the `children` slices (given fuel for
`n + 1` nested calls); level 0 gives `[s]`; in a well-linked heap no item
occurs twice in the result. -/
theorem getNodesAtLevel_levelNodes (h : Heap) (s : Ptr) (n : Nat) (hs : (h s).seed = true) :
    (∀ fuel, n + 1 ≤ fuel →
      Item.GetNodesAtLevel h fuel s n = .ok (levelNodes h n s, none)) ∧
    (∀ fuel, 1 ≤ fuel → Item.GetNodesAtLevel h fuel s 0 = .ok ([s], none)) ∧
    (wellLinked h → (levelNodes h n s).Nodup) := by
  refine ⟨fun fuel hf => ?_, fun fuel hf => ?_, fun hw => levelNodes_nodup h hw n s⟩
  · simp [Item.GetNodesAtLevel, hs, recursive_level h n n fuel s 0 [] hf (by simp)]
  · simp [Item.GetNodesAtLevel, hs, recursive_level h 0 0 fuel s 0 [] hf (by simp), levelNodes]

/-- Witness of `getNodesAtLevel_levelNodes`: level 2 of `treeHeap` is `[3, 4]`. -/
theorem getNodesAtLevel_levelNodes_witness :
    Item.GetNodesAtLevel treeHeap 3 0 2 = .ok ([3, 4], none) ∧
      (levelNodes treeHeap 2 0).Nodup :=
  ⟨((getNodesAtLevel_levelNodes treeHeap 0 2 rfl).1 3 (by decide)).trans (by decide),
    (getNodesAtLevel_levelNodes treeHeap 0 2 rfl).2.2 treeHeap_wellLinked⟩

end models

namespace models

theorem maxLoop_ok (call : Ptr → Except Fault Int) (cs : List (Option Ptr)) (acc m : Int)
    (hl : Item.GetMaxDepth.loop call cs acc = .ok m) :
    acc ≤ m ∧ (∀ c ∈ cs, ∃ q dq, c = some q ∧ call q = .ok dq ∧ dq ≤ m) ∧
      (m = acc ∨ ∃ q, some q ∈ cs ∧ call q = .ok m) := by
  induction cs generalizing acc with
  | nil =>
    rw [Item.GetMaxDepth.loop] at hl
    cases hl
    exact ⟨le_refl _, by simp, Or.inl rfl⟩
  | cons c cs ih =>
    cases c with
    | none => rw [Item.GetMaxDepth.loop] at hl; cases hl
    | some q =>
      rw [Item.GetMaxDepth.loop] at hl
      cases hq : call q with
      | error e => rw [hq] at hl; cases hl
      | ok dq =>
        rw [hq] at hl
        dsimp only at hl
        obtain ⟨h1, h2, h3⟩ := ih _ hl
        have hacc : acc ≤ m ∧ dq ≤ m := by
          split at h1 <;> omega
        refine ⟨hacc.1, ?_, ?_⟩
        · intro c hc
          rcases List.mem_cons.mp hc with rfl | hc
          · exact ⟨q, dq, rfl, hq, hacc.2⟩
          · exact h2 c hc
        · rcases h3 with h3 | ⟨r, hr, hrm⟩
          · by_cases hgt : dq > acc
            · rw [if_pos hgt] at h3
              exact Or.inr ⟨q, by simp, by rw [hq, h3]⟩
            · rw [if_neg hgt] at h3
              exact Or.inl h3
          · exact Or.inr ⟨r, List.mem_cons_of_mem _ hr, hrm⟩

theorem maxLoop_returns (call : Ptr → Except Fault Int) (cs : List Ptr) (ds : List Int)
    (acc : Int) (hf : List.Forall₂ (fun c d => call c = .ok d) cs ds) :
    ∃ m, Item.GetMaxDepth.loop call (cs.map some) acc = .ok m := by
  induction hf generalizing acc with
  | nil => exact ⟨acc, rfl⟩
  | cons hcd _ ih =>
    rw [List.map_cons, Item.GetMaxDepth.loop, hcd]
    exact ih _

theorem maxLoop_mono (call1 call2 : Ptr → Except Fault Int)
    (hc : ∀ q d, call1 q = .ok d → call2 q = .ok d) (cs : List (Option Ptr)) (acc m : Int)
    (hl : Item.GetMaxDepth.loop call1 cs acc = .ok m) :
    Item.GetMaxDepth.loop call2 cs acc = .ok m := by
  induction cs generalizing acc with
  | nil => exact hl
  | cons c cs ih =>
    cases c with
    | none => rw [Item.GetMaxDepth.loop] at hl; cases hl
    | some q =>
      rw [Item.GetMaxDepth.loop] at hl ⊢
      cases hq : call1 q with
      | error e => rw [hq] at hl; cases hl
      | ok dq =>
        rw [hq] at hl
        rw [hc q dq hq]
        exact ih _ hl

theorem getMaxDepth_succ (h : Heap) (fuel : Nat) :
    ∀ (i : Ptr) (d : Int), Item.GetMaxDepth h fuel i = .ok d →
      Item.GetMaxDepth h (fuel + 1) i = .ok d := by
  induction fuel with
  | zero => intro i d hd; rw [Item.GetMaxDepth] at hd; cases hd
  | succ fuel ih =>
    intro i d hd
    rw [Item.GetMaxDepth] at hd ⊢
    by_cases hz : (h i).children.length = 0
    · rw [if_pos hz] at hd ⊢
      exact hd
    · rw [if_neg hz] at hd ⊢
      cases hl : Item.GetMaxDepth.loop (Item.GetMaxDepth h fuel) (h i).children 0 with
      | error e => rw [hl] at hd; cases hd
      | ok m =>
        rw [hl] at hd
        rw [maxLoop_mono _ _ ih _ _ _ hl]
        exact hd

theorem getMaxDepth_mono (h : Heap) (i : Ptr) (d : Int) (fuel fuel1 : Nat)
    (hd : Item.GetMaxDepth h fuel i = .ok d) (hle : fuel ≤ fuel1) :
    Item.GetMaxDepth h fuel1 i = .ok d := by
  induction hle with
  | refl => exact hd
  | step _ ih => exact getMaxDepth_succ h _ i d ih

theorem getMaxDepth_cases (h : Heap) (fuel : Nat) (i : Ptr) (d : Int)
    (hd : Item.GetMaxDepth h (fuel + 1) i = .ok d) :
    ((h i).children = [] ∧ d = 0) ∨
      ((h i).children ≠ [] ∧ ∃ m, d = m + 1 ∧
        Item.GetMaxDepth.loop (Item.GetMaxDepth h fuel) (h i).children 0 = .ok m) := by
  rw [Item.GetMaxDepth] at hd
  by_cases hz : (h i).children.length = 0
  · rw [if_pos hz] at hd
    cases hd
    exact Or.inl ⟨List.length_eq_zero.mp hz, rfl⟩
  · rw [if_neg hz] at hd
    cases hl : Item.GetMaxDepth.loop (Item.GetMaxDepth h fuel) (h i).children 0 with
    | error e => rw [hl] at hd; cases hd
    | ok m =>
      rw [hl] at hd
      cases hd
      exact Or.inr ⟨fun hn => hz (by rw [hn]; rfl), m, rfl, rfl⟩

theorem getMaxDepth_nonneg (h : Heap) (fuel : Nat) (i : Ptr) (d : Int)
    (hd : Item.GetMaxDepth h fuel i = .ok d) : 0 ≤ d := by
  cases fuel with
  | zero => rw [Item.GetMaxDepth] at hd; cases hd
  | succ fuel =>
    rcases getMaxDepth_cases h fuel i d hd with ⟨_, rfl⟩ | ⟨_, m, rfl, hl⟩
    · exact le_refl _
    · have := (maxLoop_ok _ _ _ _ hl).1
      omega

end models

namespace models

theorem forall₂_right {α β : Type} {R : α → β → Prop} {l1 : List α} {l2 : List β}
    (hf : List.Forall₂ R l1 l2) : ∀ b ∈ l2, ∃ a ∈ l1, R a b := by
  induction hf with
  | nil => simp
  | cons hab _ ih =>
    intro b hb
    rcases List.mem_cons.mp hb with rfl | hb
    · exact ⟨_, by simp, hab⟩
    · obtain ⟨a, ha, hr⟩ := ih b hb
      exact ⟨a, List.mem_cons_of_mem _ ha, hr⟩

theorem forall₂_left {α β : Type} {R : α → β → Prop} {l1 : List α} {l2 : List β}
    (hf : List.Forall₂ R l1 l2) : ∀ a ∈ l1, ∃ b ∈ l2, R a b := by
  induction hf with
  | nil => simp
  | cons hab _ ih =>
    intro a ha
    rcases List.mem_cons.mp ha with rfl | ha
    · exact ⟨_, by simp, hab⟩
    · obtain ⟨b, hb, hr⟩ := ih a ha
      exact ⟨b, List.mem_cons_of_mem _ hb, hr⟩

/-- C13. `GetMaxDepth` is 0 for an item without children; for an item with
at least one child, all of them non-nil, whose calls return the depths `ds`,
it returns the maximum over the children of 1 + the child's depth: a value
`d` with `dc + 1 ≤ d` for every child depth `dc` and `d = dc + 1` for one of
them. The value does not depend on the fuel once there is enough of it. -/
theorem getMaxDepth_children (h : Heap) (i : Ptr) :
    ((h i).children = [] → ∀ fuel, Item.GetMaxDepth h (fuel + 1) i = .ok 0) ∧
    (∀ (fuel : Nat) (cs : List Ptr) (ds : List Int), cs ≠ [] →
      (h i).children = cs.map some →
      List.Forall₂ (fun c d => Item.GetMaxDepth h fuel c = .ok d) cs ds →
      ∃ d, (∀ fuel1, fuel + 1 ≤ fuel1 → Item.GetMaxDepth h fuel1 i = .ok d) ∧
        (∀ dc ∈ ds, dc + 1 ≤ d) ∧ ∃ dc ∈ ds, d = dc + 1) := by
  constructor
  · intro hc fuel
    simp [Item.GetMaxDepth, hc]
  · intro fuel cs ds hne hch hf
    obtain ⟨m, hm⟩ := maxLoop_returns (Item.GetMaxDepth h fuel) cs ds 0 hf
    have hlen : ¬ (h i).children.length = 0 := by
      rw [hch, List.length_map]
      exact fun hz => hne (List.length_eq_zero.mp hz)
    have hd : Item.GetMaxDepth h (fuel + 1) i = .ok (m + 1) := by
      rw [Item.GetMaxDepth, if_neg hlen, hch, hm]
    obtain ⟨h0, hall, hex⟩ := maxLoop_ok _ _ _ _ hm
    have hle : ∀ dc ∈ ds, dc ≤ m := by
      intro dc hdc
      obtain ⟨c, hc, hcd⟩ := forall₂_right hf dc hdc
      obtain ⟨q, dq, hq, hqd, hqm⟩ := hall (some c) (List.mem_map_of_mem _ hc)
      cases hq
      rw [hcd] at hqd
      cases hqd
      exact hqm
    refine ⟨m + 1, fun fuel1 hf1 => getMaxDepth_mono h i _ _ _ hd hf1,
      fun dc hdc => by have := hle dc hdc; omega, ?_⟩
    rcases hex with hm0 | ⟨q, hq, hqm⟩
    · obtain ⟨c, hc⟩ := List.exists_mem_of_ne_nil cs hne
      obtain ⟨dc, hdc, hcd⟩ := forall₂_left hf c hc
      have h1 := hle dc hdc
      have h2 := getMaxDepth_nonneg h fuel c dc hcd
      exact ⟨dc, hdc, by omega⟩
    · obtain ⟨c, hc, hcq⟩ := List.mem_map.mp hq
      cases hcq
      obtain ⟨dc, hdc, hcd⟩ := forall₂_left hf q hc
      rw [hqm] at hcd
      cases hcd
      exact ⟨m, hdc, rfl⟩

/-- Witness of `getMaxDepth_children`: in `treeHeap` the seed holds item 1 of
depth 1 and item 2 of depth 0, and has depth 2. -/
theorem getMaxDepth_children_witness :
    Item.GetMaxDepth treeHeap 3 3 = .ok 0 ∧
      ∃ d, (∀ fuel1, 3 ≤ fuel1 → Item.GetMaxDepth treeHeap fuel1 0 = .ok d) ∧
        (∀ dc ∈ [(1 : Int), 0], dc + 1 ≤ d) ∧ ∃ dc ∈ [(1 : Int), 0], d = dc + 1 :=
  ⟨(getMaxDepth_children treeHeap 3).1 rfl 2,
    (getMaxDepth_children treeHeap 0).2 2 [1, 2] [1, 0] (by decide) rfl
      (.cons (by decide) (.cons (by decide) .nil))⟩

theorem levelNodes_ne_nil_iff (h : Heap) (fuel : Nat) :
    ∀ (p : Ptr) (d : Int), Item.GetMaxDepth h fuel p = .ok d →
      ∀ n : Nat, levelNodes h n p ≠ [] ↔ (n : Int) ≤ d := by
  induction fuel with
  | zero => intro p d hd; rw [Item.GetMaxDepth] at hd; cases hd
  | succ fuel ih =>
    intro p d hd n
    cases n with
    | zero =>
      have := getMaxDepth_nonneg h _ p d hd
      simp [levelNodes, this]
    | succ n =>
      rw [levelNodes, Ne, List.flatMap_eq_nil_iff]
      rcases getMaxDepth_cases h fuel p d hd with ⟨hc, rfl⟩ | ⟨hc, m, rfl, hl⟩
      · rw [hc]
        simp
      · obtain ⟨h0, hall, hex⟩ := maxLoop_ok _ _ _ _ hl
        push_neg
        constructor
        · rintro ⟨c, hc1, hc2⟩
          obtain ⟨q, dq, rfl, hq, hqm⟩ := hall c hc1
          have := (ih q dq hq n).mp hc2
          push_cast
          omega
        · intro hn
          push_cast at hn
          have hnm : (n : Int) ≤ m := by omega
          rcases hex with hm0 | ⟨q, hq, hqm⟩
          · obtain ⟨c, hc1⟩ := List.exists_mem_of_ne_nil _ hc
            obtain ⟨q, dq, rfl, hq, hqm⟩ := hall c hc1
            have hnn := getMaxDepth_nonneg h fuel q dq hq
            exact ⟨some q, hc1, (ih q dq hq n).mpr (by omega)⟩
          · exact ⟨some q, hq, (ih q m hqm n).mpr hnm⟩

end models

namespace models

theorem maxLoop_total (call : Ptr → Except Fault Int) (cs : List (Option Ptr)) (acc : Int)
    (hc : ∀ c ∈ cs, ∃ q d, c = some q ∧ call q = .ok d) :
    ∃ m, Item.GetMaxDepth.loop call cs acc = .ok m := by
  induction cs generalizing acc with
  | nil => exact ⟨acc, rfl⟩
  | cons c cs ih =>
    obtain ⟨q, d, rfl, hq⟩ := hc c (by simp)
    rw [Item.GetMaxDepth.loop, hq]
    exact ih _ (fun x hx => hc x (List.mem_cons_of_mem _ hx))

theorem getMaxDepth_total (h : Heap) (D : Nat) :
    ∀ p, fullTree h D p = true → ∃ d, Item.GetMaxDepth h D p = .ok d := by
  induction D with
  | zero => intro p hp; simp [fullTree] at hp
  | succ D ih =>
    intro p hp
    rw [fullTree, List.all_eq_true] at hp
    rw [Item.GetMaxDepth]
    by_cases hz : (h p).children.length = 0
    · exact ⟨0, by rw [if_pos hz]⟩
    · rw [if_neg hz]
      obtain ⟨m, hm⟩ := maxLoop_total (Item.GetMaxDepth h D) (h p).children 0 (by
        intro c hc
        have := hp c hc
        cases c with
        | none => simp at this
        | some q =>
          obtain ⟨d, hd⟩ := ih q this
          exact ⟨q, d, rfl, hd⟩)
      exact ⟨m + 1, by rw [hm]⟩

/-- C20. For a seed `s` whose tree has no nil child (and fewer than `D`
levels), `GetMaxDepth` returns a depth `d`, and for every integer level `n`
`GetNodesAtLevel(n)` returns, with a nil error, a list that is non-empty if
and only if `0 ≤ n ≤ d`. -/
theorem getNodesAtLevel_nonempty_iff (h : Heap) (s : Ptr) (D : Nat)
    (hs : (h s).seed = true) (ht : fullTree h D s = true) :
    ∃ d, (∀ fuel, D ≤ fuel → Item.GetMaxDepth h fuel s = .ok d) ∧
      ∀ n : Int, ∃ (F : Nat) (nodes : List Ptr),
        (∀ fuel, F ≤ fuel → Item.GetNodesAtLevel h fuel s n = .ok (nodes, none)) ∧
        (nodes ≠ [] ↔ 0 ≤ n ∧ n ≤ d) := by
  obtain ⟨d, hd⟩ := getMaxDepth_total h D s ht
  refine ⟨d, fun fuel hf => getMaxDepth_mono h s d D fuel hd hf, fun n => ?_⟩
  have hd0 := getMaxDepth_nonneg h D s d hd
  by_cases hn : 0 ≤ n
  · obtain ⟨k, rfl⟩ := Int.eq_ofNat_of_zero_le hn
    refine ⟨k + 1, levelNodes h k s, fun fuel hf => ?_, ?_⟩
    · simp [Item.GetNodesAtLevel, hs, recursive_level h k k fuel s 0 [] hf (by simp)]
    · rw [levelNodes_ne_nil_iff h D s d hd k]
      simp
  · have hempty : levelNodes h (d.toNat + 1) s = [] := by
      by_contra hne
      have := (levelNodes_ne_nil_iff h D s d hd (d.toNat + 1)).mp hne
      push_cast at this
      omega
    refine ⟨d.toNat + 1 + 1, [], fun fuel hf => ?_, ?_⟩
    · simp [Item.GetNodesAtLevel, hs,
        recursive_never h n (d.toNat + 1) fuel s 0 [] hf hempty (by omega)]
    · simp
      intro h0
      exact absurd h0 hn

/-- Witness of `getNodesAtLevel_nonempty_iff`: the seed of `treeHeap`, whose
tree has three levels. -/
theorem getNodesAtLevel_nonempty_iff_witness :
    ∃ d, (∀ fuel, 3 ≤ fuel → Item.GetMaxDepth treeHeap fuel 0 = .ok d) ∧
      ∀ n : Int, ∃ (F : Nat) (nodes : List Ptr),
        (∀ fuel, F ≤ fuel → Item.GetNodesAtLevel treeHeap fuel 0 n = .ok (nodes, none)) ∧
        (nodes ≠ [] ↔ 0 ≤ n ∧ n ≤ d) :=
  getNodesAtLevel_nonempty_iff treeHeap 0 3 rfl (by decide)

theorem getSeed_loop_some (h : Heap) (fuel : Nat) (q : Ptr) :
    Item.GetSeed.loop h (fuel + 1) (some q) = Item.GetSeed h fuel q := by
  rw [Item.GetSeed.loop, Item.GetSeed]

theorem chain_to_seed (h : Heap) (k : Nat) :
    ∀ (p s : Ptr), ancestor h k p = some s → (h s).seed = true →
      ∃ (r : Ptr) (d : Nat), d ≤ k ∧ (h r).seed = true ∧ ancestor h d p = some r ∧
        ∀ fuel, k + 1 ≤ fuel →
          Item.GetSeed h fuel p = .ok (some r) ∧ Item.GetDepth h fuel p = .ok d := by
  induction k with
  | zero =>
    intro p s ha hs
    simp only [ancestor, Option.some.injEq] at ha
    subst ha
    refine ⟨p, 0, le_refl _, hs, rfl, fun fuel hf => ?_⟩
    obtain ⟨f, rfl⟩ : ∃ f, fuel = f + 1 := ⟨fuel - 1, by omega⟩
    simp [Item.GetSeed, Item.GetDepth, hs]
  | succ k ih =>
    intro p s ha hs
    by_cases hp : (h p).seed = true
    · refine ⟨p, 0, Nat.zero_le _, hp, rfl, fun fuel hf => ?_⟩
      obtain ⟨f, rfl⟩ : ∃ f, fuel = f + 1 := ⟨fuel - 1, by omega⟩
      simp [Item.GetSeed, Item.GetDepth, hp]
    · rw [ancestor] at ha
      cases hpar : (h p).parent with
      | none => rw [hpar] at ha; cases ha
      | some q =>
        rw [hpar] at ha
        obtain ⟨r, d, hdk, hr, hanc, hrun⟩ := ih q s ha hs
        refine ⟨r, d + 1, by omega, hr, by rw [ancestor, hpar]; exact hanc, fun fuel hf => ?_⟩
        obtain ⟨f, rfl⟩ : ∃ f, fuel = f + 1 := ⟨fuel - 1, by omega⟩
        obtain ⟨h1, h2⟩ := hrun f (by omega)
        constructor
        · rw [Item.GetSeed, if_neg hp, hpar, getSeed_loop_some]
          exact h1
        · rw [Item.GetDepth, if_neg hp, hpar]
          dsimp only
          rw [h2]
          rfl

end models

namespace models

/-- C14. `GetDepth` is 0 for every seed; for a non-seed item whose parent
chain ends in a seed (`k` parent links lead to a seed `s`), the parent is
non-nil, `GetDepth` returns on the parent and on the item, and
`GetDepth(item) = GetDepth(parent) + 1`. -/
theorem getDepth_parent_succ (h : Heap) (i : Ptr) :
    ((h i).seed = true → ∀ fuel, Item.GetDepth h (fuel + 1) i = .ok 0) ∧
    ((h i).seed = false → ∀ (k : Nat) (s : Ptr), ancestor h k i = some s →
      (h s).seed = true →
      ∃ (parent : Ptr) (d : Int), (h i).parent = some parent ∧
        ∀ fuel, k + 1 ≤ fuel →
          Item.GetDepth h fuel parent = .ok d ∧ Item.GetDepth h fuel i = .ok (d + 1)) := by
  constructor
  · intro hs fuel
    simp [Item.GetDepth, hs]
  · intro hns k s ha hs
    cases k with
    | zero =>
      simp only [ancestor, Option.some.injEq] at ha
      subst ha
      rw [hs] at hns
      cases hns
    | succ k =>
      rw [ancestor] at ha
      cases hpar : (h i).parent with
      | none => rw [hpar] at ha; cases ha
      | some q =>
        rw [hpar] at ha
        obtain ⟨r, d, _, _, _, hrun⟩ := chain_to_seed h k q s ha hs
        refine ⟨q, d, rfl, fun fuel hf => ?_⟩
        obtain ⟨f, rfl⟩ : ∃ f, fuel = f + 1 := ⟨fuel - 1, by omega⟩
        refine ⟨(hrun (f + 1) (by omega)).2, ?_⟩
        rw [Item.GetDepth, if_neg (by simp [hns]), hpar]
        dsimp only
        rw [(hrun f (by omega)).2]

/-- Witness of `getDepth_parent_succ`: item 3 of `treeHeap`, two parent links
below the seed. -/
theorem getDepth_parent_succ_witness :
    Item.GetDepth treeHeap 1 0 = .ok 0 ∧
      ∃ (parent : Ptr) (d : Int), (treeHeap 3).parent = some parent ∧
        ∀ fuel, 3 ≤ fuel →
          Item.GetDepth treeHeap fuel parent = .ok d ∧
            Item.GetDepth treeHeap fuel 3 = .ok (d + 1) :=
  ⟨(getDepth_parent_succ treeHeap 0).1 rfl 0,
    (getDepth_parent_succ treeHeap 3).2 rfl 2 0 rfl rfl⟩

/-- C18. For a seed, `GetSeed` returns the item itself. For an item whose
parent chain ends in a seed (`k` parent links lead to a seed `s`), `GetSeed`
returns a non-nil item `r` that is a seed, `GetDepth` returns a depth `d`,
and `r` is the item reached by following `d` parent pointers from the item. -/
theorem getSeed_is_depth_ancestor (h : Heap) (i : Ptr) :
    ((h i).seed = true → ∀ fuel, Item.GetSeed h fuel i = .ok (some i)) ∧
    (∀ (k : Nat) (s : Ptr), ancestor h k i = some s → (h s).seed = true →
      ∃ (r : Ptr) (d : Nat), (h r).seed = true ∧ ancestor h d i = some r ∧
        ∀ fuel, k + 1 ≤ fuel →
          Item.GetSeed h fuel i = .ok (some r) ∧ Item.GetDepth h fuel i = .ok d) := by
  constructor
  · intro hs fuel
    simp [Item.GetSeed, hs]
  · intro k s ha hs
    obtain ⟨r, d, _, hr, hanc, hrun⟩ := chain_to_seed h k i s ha hs
    exact ⟨r, d, hr, hanc, hrun⟩

/-- Witness of `getSeed_is_depth_ancestor`: from item 4 of `treeHeap`,
`GetSeed` gives the seed 0, two parent links up. -/
theorem getSeed_is_depth_ancestor_witness :
    Item.GetSeed treeHeap 0 0 = .ok (some 0) ∧
      ∃ (r : Ptr) (d : Nat), (treeHeap r).seed = true ∧ ancestor treeHeap d 4 = some r ∧
        ∀ fuel, 3 ≤ fuel →
          Item.GetSeed treeHeap fuel 4 = .ok (some r) ∧ Item.GetDepth treeHeap fuel 4 = .ok d :=
  ⟨(getSeed_is_depth_ancestor treeHeap 0).1 rfl 0,
    (getSeed_is_depth_ancestor treeHeap 4).2 2 0 rfl rfl⟩

end models

namespace crawl

theorem sendOutlinks_eq_map (c : Crawl) (item : frontier.Item) (outlinks : List frontier.URL) :
    Worker.sendOutlinks c item outlinks =
      outlinks.map (fun o =>
        (if c.UseKafka && decide (c.KafkaOutlinksTopic.length > 0) then
            Chan.KafkaProducerChannel else Chan.PushChan,
          frontier.NewItem o item
            (if c.DomainsCrawl && strings.Contains item.Host o.Host && item.Hop == 0 then 0
             else item.Hop + 1))) := by
  induction outlinks with
  | nil => rfl
  | cons o os ih =>
    rw [Worker.sendOutlinks, List.map_cons, ih]
    split <;> split <;> rfl

theorem mem_worker (c : Crawl) (capture : Except String (List frontier.URL))
    (item : frontier.Item) (s : Chan × frontier.Item) (hs : s ∈ Worker c capture item) :
    ∃ o, s.2 = frontier.NewItem o item
      (if c.DomainsCrawl && strings.Contains item.Host o.Host && item.Hop == 0 then 0
       else item.Hop + 1) := by
  unfold Worker at hs
  cases capture with
  | error e => simp at hs
  | ok outlinks =>
    dsimp only at hs
    split at hs
    · rw [sendOutlinks_eq_map, List.mem_map] at hs
      obtain ⟨o, _, rfl⟩ := hs
      exact ⟨o, rfl⟩
    · simp at hs

/-- C15, amended. Every new item `Worker` creates for an outlink of an item
has hop `item.Hop + 1`, except when `DomainsCrawl` is enabled, the item is at
hop 0 and the outlink's host is a substring of the item's host (the test
`strings.Contains(item.Host, outlink.Host)`), in which case it has hop 0; so
every created hop is `item.Hop` or `item.Hop + 1`, and with `DomainsCrawl`
disabled it is `item.Hop + 1`. -/
theorem worker_created_hops (c : Crawl) (capture : Except String (List frontier.URL))
    (item : frontier.Item) :
    ∀ s ∈ Worker c capture item,
      s.2.Hop = (if c.DomainsCrawl = true ∧ item.Hop = 0 ∧ s.2.URL.Host <:+: item.Host then 0
        else item.Hop + 1) ∧
      (s.2.Hop = item.Hop ∨ s.2.Hop = item.Hop + 1) ∧
      (c.DomainsCrawl = false → s.2.Hop = item.Hop + 1) := by
  intro s hs
  obtain ⟨o, ho⟩ := mem_worker c capture item s hs
  have hURL : s.2.URL = o := by rw [ho]; rfl
  have hHop : s.2.Hop = (if c.DomainsCrawl && strings.Contains item.Host o.Host && item.Hop == 0
      then 0 else item.Hop + 1) := by rw [ho]; rfl
  have hcond : (c.DomainsCrawl && strings.Contains item.Host o.Host && item.Hop == 0) = true ↔
      (c.DomainsCrawl = true ∧ item.Hop = 0 ∧ o.Host <:+: item.Host) := by
    simp only [Bool.and_eq_true, beq_iff_eq, strings.contains_iff]
    tauto
  rw [hURL, hHop]
  by_cases hc : c.DomainsCrawl = true ∧ item.Hop = 0 ∧ o.Host <:+: item.Host
  · rw [if_pos (hcond.mpr hc), if_pos hc]
    refine ⟨rfl, Or.inl hc.2.1.symm, fun hd => ?_⟩
    rw [hc.1] at hd
    cases hd
  · rw [if_neg (fun hb => hc (hcond.mp hb)), if_neg hc]
    exact ⟨rfl, Or.inr rfl, fun _ => rfl⟩

theorem worker_api_sends :
    Worker domainsCrawl (.ok [apiOutlink]) exItem =
      [(Chan.PushChan, frontier.NewItem apiOutlink exItem 1)] := rfl

theorem worker_api_x_sends :
    Worker domainsCrawl (.ok [apiOutlink, xOutlink]) exItem =
      [(Chan.PushChan, frontier.NewItem apiOutlink exItem 1),
        (Chan.PushChan, frontier.NewItem xOutlink exItem 0)] := rfl

theorem x_within_ex : xOutlink.Host <:+: exItem.Host :=
  (strings.contains_iff _ _).mp (by decide)

theorem api_not_within_ex : ¬ apiOutlink.Host <:+: exItem.Host := by
  intro hin
  have := (strings.contains_iff exItem.Host apiOutlink.Host).mpr hin
  revert this
  decide

/-- C15, counterexample. With `DomainsCrawl` enabled and the item `ex.com` at
hop 0: the outlink `x.com`, whose host is neither the item's host nor a host
that contains it, gets hop 0 and not `item.Hop + 1`; the outlink
`api.ex.com`, a host of the item's domain, gets hop 1 and does not inherit
hop 0. -/
theorem worker_hosts_match_differs :
    domainsCrawl.DomainsCrawl = true ∧ exItem.Hop = 0 ∧
      (xOutlink.Host ≠ exItem.Host ∧ ¬ exItem.Host <:+: xOutlink.Host ∧
        (Worker domainsCrawl (.ok [xOutlink]) exItem).map (fun s => s.2.Hop) = [0] ∧
        (0 : Nat) ≠ exItem.Hop + 1) ∧
      (exItem.Host <:+: apiOutlink.Host ∧
        (Worker domainsCrawl (.ok [apiOutlink]) exItem).map (fun s => s.2.Hop) = [1]) := by
  refine ⟨rfl, rfl, ⟨by decide, ?_, by decide, by decide⟩, ?_, by decide⟩
  · intro hin
    have := (strings.contains_iff xOutlink.Host exItem.Host).mpr hin
    revert this
    decide
  · exact (strings.contains_iff _ _).mp (by decide)

/-- Witness of `worker_created_hops`: with `DomainsCrawl` enabled and the item
`ex.com` at hop 0, the outlink `api.ex.com` (not within `ex.com`) gives a new
item of hop 1 and the outlink `x.com` (within `ex.com`) one of hop 0. -/
theorem worker_created_hops_witness :
    ¬ apiOutlink.Host <:+: exItem.Host ∧ xOutlink.Host <:+: exItem.Host ∧
      (Worker domainsCrawl (.ok [apiOutlink, xOutlink]) exItem).map (fun s => s.2.URL) =
        [apiOutlink, xOutlink] ∧
      (frontier.NewItem apiOutlink exItem 1).Hop = exItem.Hop + 1 ∧
      (frontier.NewItem xOutlink exItem 0).Hop = 0 :=
  ⟨api_not_within_ex, x_within_ex, by decide,
    ((worker_created_hops domainsCrawl (.ok [apiOutlink, xOutlink]) exItem
      (Chan.PushChan, frontier.NewItem apiOutlink exItem 1)
      (by rw [worker_api_x_sends]; exact List.mem_cons_self _ _)).1).trans
      (if_neg (fun hc => api_not_within_ex hc.2.2)),
    ((worker_created_hops domainsCrawl (.ok [apiOutlink, xOutlink]) exItem
      (Chan.PushChan, frontier.NewItem xOutlink exItem 0)
      (by rw [worker_api_x_sends]
          exact List.mem_cons_of_mem _ (List.mem_singleton.mpr rfl))).1).trans
      (if_pos ⟨rfl, rfl, x_within_ex⟩)⟩

end crawl

namespace postprocessor

open models

theorem loop_past_redirect (env : Env) (T : URLType) (URL : models.URL)
    (URLs : List models.URL) (item : Item) (r : Response) (hr : URL.response = some r)
    (hpast : T ≠ .URLTypeSeed ∨ isStatusCodeRedirect r.StatusCode = false) :
    postprocess.loop env T (URL :: URLs) item =
      if (item.childsCaptured > 0 ∨ (env.config.DisableAssetsCapture = true ∧
          env.config.DomainsCrawl = false ∧
          toUint64 env.config.MaxHops ≤ toUint64 URL.Hops)) then
        some ((item.SetRedirection none).SetStatus .ItemFailed, drained URL :: URLs)
      else if r.Body.readErr = true then
        some (item.SetRedirection none, drained URL :: URLs)
      else if env.parseFails r.Body.data = true then
        some ((item.SetRedirection none).SetBody r.Body.data, drained URL :: URLs)
      else
        (postprocess.loop env T URLs
          (extractAssets env r.Body.data URL r.ContentType
            (scrapeBaseTag env r.Body.data
              ((item.SetRedirection none).SetBody r.Body.data))).1).map
          (fun x => (x.1, drained URL :: x.2)) := by
  have hred : (if T = URLType.URLTypeSeed then some (isStatusCodeRedirect r.StatusCode)
      else some false) = some false := by
    rcases hpast with hT | hs
    · rw [if_neg hT]
    · split <;> simp [hs]
  rw [postprocess.loop]
  simp only [hr]
  rw [hred]
  dsimp only
  by_cases hc : (item.childsCaptured > 0 ∨ (env.config.DisableAssetsCapture = true ∧
      env.config.DomainsCrawl = false ∧ toUint64 env.config.MaxHops ≤ toUint64 URL.Hops))
  · rw [if_pos hc]
    have : ((decide ((item.SetRedirection none).childsCaptured > 0) ||
        (env.config.DisableAssetsCapture && !env.config.DomainsCrawl &&
          decide (toUint64 env.config.MaxHops ≤ toUint64 URL.Hops))) = true) := by
      simpa [Item.SetRedirection, and_assoc] using hc
    rw [if_pos this]
  · rw [if_neg hc]
    have : ¬ ((decide ((item.SetRedirection none).childsCaptured > 0) ||
        (env.config.DisableAssetsCapture && !env.config.DomainsCrawl &&
          decide (toUint64 env.config.MaxHops ≤ toUint64 URL.Hops))) = true) := by
      simpa [Item.SetRedirection, and_assoc] using hc
    rw [if_neg this]

end postprocessor

namespace postprocessor

open models

theorem loop_no_response (env : Env) (T : URLType) (URL : models.URL)
    (URLs : List models.URL) (item : Item) (hr : URL.response = none) (hT : T ≠ .URLTypeSeed) :
    postprocess.loop env T (URL :: URLs) item =
      if (item.childsCaptured > 0 ∨ (env.config.DisableAssetsCapture = true ∧
          env.config.DomainsCrawl = false ∧
          toUint64 env.config.MaxHops ≤ toUint64 URL.Hops)) then none
      else (postprocess.loop env T URLs (item.SetRedirection none)).map
        (fun x => (x.1, URL :: x.2)) := by
  rw [postprocess.loop]
  simp only [hr, if_neg hT]
  by_cases hc : (item.childsCaptured > 0 ∨ (env.config.DisableAssetsCapture = true ∧
      env.config.DomainsCrawl = false ∧ toUint64 env.config.MaxHops ≤ toUint64 URL.Hops))
  · rw [if_pos hc]
    have : ((decide ((item.SetRedirection none).childsCaptured > 0) ||
        (env.config.DisableAssetsCapture && !env.config.DomainsCrawl &&
          decide (toUint64 env.config.MaxHops ≤ toUint64 URL.Hops))) = true) := by
      simpa [Item.SetRedirection, and_assoc] using hc
    rw [if_pos this]
  · rw [if_neg hc]
    have : ¬ ((decide ((item.SetRedirection none).childsCaptured > 0) ||
        (env.config.DisableAssetsCapture && !env.config.DomainsCrawl &&
          decide (toUint64 env.config.MaxHops ≤ toUint64 URL.Hops))) = true) := by
      simpa [Item.SetRedirection, and_assoc] using hc
    rw [if_neg this]

theorem addChilds_fields (item : Item) (assets : List models.URL) :
    (addChilds item assets).redirection = item.redirection ∧
      (addChilds item assets).body = item.body ∧
      (addChilds item assets).status = item.status ∧
      (addChilds item assets).childs = item.childs ++ assets := by
  induction assets generalizing item with
  | nil => simp [addChilds]
  | cons a as ih =>
    rw [addChilds]
    obtain ⟨h1, h2, h3, h4⟩ := ih (item.AddChild a)
    exact ⟨h1, h2, h3, by rw [h4]; simp [Item.AddChild]⟩

theorem extractAssets_fields (env : Env) (doc : List Nat) (URL : models.URL) (ct : List Char)
    (item : Item) :
    (extractAssets env doc URL ct item).1.redirection = item.redirection ∧
      (extractAssets env doc URL ct item).1.body = item.body := by
  unfold extractAssets
  dsimp only
  split
  · exact ⟨rfl, rfl⟩
  · exact ⟨(addChilds_fields _ _).1, (addChilds_fields _ _).2.1⟩

theorem scrapeBaseTag_fields (env : Env) (doc : List Nat) (item : Item) :
    (scrapeBaseTag env doc item).redirection = item.redirection ∧
      (scrapeBaseTag env doc item).body = item.body ∧
      (scrapeBaseTag env doc item).childs = item.childs := by
  unfold scrapeBaseTag
  split <;> exact ⟨rfl, rfl, rfl⟩

theorem loop_returns (env : Env) (T : URLType) (URLs : List models.URL)
    (hall : ∀ u ∈ URLs, u.response ≠ none) :
    ∀ item, ∃ out, postprocess.loop env T URLs item = some out := by
  induction URLs with
  | nil => intro item; exact ⟨_, rfl⟩
  | cons URL URLs ih =>
    intro item
    have hne := hall URL (by simp)
    cases hr : URL.response with
    | none => exact absurd hr hne
    | some r =>
      by_cases hpast : T ≠ .URLTypeSeed ∨ isStatusCodeRedirect r.StatusCode = false
      · rw [loop_past_redirect env T URL URLs item r hr hpast]
        split
        · exact ⟨_, rfl⟩
        · split
          · exact ⟨_, rfl⟩
          · split
            · exact ⟨_, rfl⟩
            · obtain ⟨out, hout⟩ := ih (fun u hu => hall u (List.mem_cons_of_mem _ hu))
                (extractAssets env r.Body.data URL r.ContentType
                  (scrapeBaseTag env r.Body.data
                    ((item.SetRedirection none).SetBody r.Body.data))).1
              rw [hout]
              exact ⟨_, rfl⟩
      · push_neg at hpast
        obtain ⟨hT, hs⟩ := hpast
        have hs1 : isStatusCodeRedirect r.StatusCode = true := by
          cases hb : isStatusCodeRedirect r.StatusCode with
          | true => rfl
          | false => exact absurd hb hs
        rw [hT, loop_seed_redirect env URL URLs item r hr hs1]
        split <;> exact ⟨_, rfl⟩

theorem loop_body_some (env : Env) (T : URLType) (URLs : List models.URL) :
    ∀ item out, item.body ≠ none → postprocess.loop env T URLs item = some out →
      out.1.body ≠ none := by
  induction URLs with
  | nil =>
    intro item out hb ho
    rw [postprocess.loop] at ho
    cases ho
    exact hb
  | cons URL URLs ih =>
    intro item out hb ho
    cases hr : URL.response with
    | none =>
      by_cases hT : T = .URLTypeSeed
      · rw [postprocess.loop] at ho
        simp [hr, hT] at ho
      · rw [loop_no_response env T URL URLs item hr hT] at ho
        split at ho
        · cases ho
        · cases hl : postprocess.loop env T URLs (item.SetRedirection none) with
          | none => rw [hl] at ho; cases ho
          | some o2 =>
            rw [hl] at ho
            cases ho
            exact ih (item.SetRedirection none) o2 hb hl
    | some r =>
      by_cases hpast : T ≠ .URLTypeSeed ∨ isStatusCodeRedirect r.StatusCode = false
      · rw [loop_past_redirect env T URL URLs item r hr hpast] at ho
        split at ho
        · cases ho; exact hb
        · split at ho
          · cases ho; exact hb
          · split at ho
            · cases ho
              simp [Item.SetBody]
            · cases hl : postprocess.loop env T URLs
                  (extractAssets env r.Body.data URL r.ContentType
                    (scrapeBaseTag env r.Body.data
                      ((item.SetRedirection none).SetBody r.Body.data))).1 with
              | none => rw [hl] at ho; cases ho
              | some o2 =>
                rw [hl] at ho
                cases ho
                refine ih _ o2 ?_ hl
                rw [(extractAssets_fields _ _ _ _ _).2, (scrapeBaseTag_fields _ _ _).2.1]
                simp [Item.SetBody]
      · push_neg at hpast
        obtain ⟨hT, hs⟩ := hpast
        have hs1 : isStatusCodeRedirect r.StatusCode = true := by
          cases hb2 : isStatusCodeRedirect r.StatusCode with
          | true => rfl
          | false => exact absurd hb2 hs
        rw [hT, loop_seed_redirect env URL URLs item r hr hs1] at ho
        split at ho <;> cases ho <;> exact hb

theorem loop_redirection_none (env : Env) (T : URLType) (hT : T ≠ .URLTypeSeed)
    (URLs : List models.URL) :
    ∀ item out, (URLs ≠ [] ∨ item.redirection = none) →
      postprocess.loop env T URLs item = some out → out.1.redirection = none := by
  induction URLs with
  | nil =>
    intro item out hb ho
    rw [postprocess.loop] at ho
    cases ho
    rcases hb with hb | hb
    · exact absurd rfl hb
    · exact hb
  | cons URL URLs ih =>
    intro item out _ ho
    cases hr : URL.response with
    | none =>
      rw [loop_no_response env T URL URLs item hr hT] at ho
      split at ho
      · cases ho
      · cases hl : postprocess.loop env T URLs (item.SetRedirection none) with
        | none => rw [hl] at ho; cases ho
        | some o2 =>
          rw [hl] at ho
          cases ho
          exact ih _ o2 (Or.inr rfl) hl
    | some r =>
      rw [loop_past_redirect env T URL URLs item r hr (Or.inl hT)] at ho
      split at ho
      · cases ho; rfl
      · split at ho
        · cases ho; rfl
        · split at ho
          · cases ho; rfl
          · cases hl : postprocess.loop env T URLs
                (extractAssets env r.Body.data URL r.ContentType
                  (scrapeBaseTag env r.Body.data
                    ((item.SetRedirection none).SetBody r.Body.data))).1 with
            | none => rw [hl] at ho; cases ho
            | some o2 =>
              rw [hl] at ho
              cases ho
              refine ih _ o2 (Or.inr ?_) hl
              rw [(extractAssets_fields _ _ _ _ _).1, (scrapeBaseTag_fields _ _ _).1]
              rfl

end postprocessor

namespace postprocessor

open models

theorem postprocess_returns (env : Env) (item : Item)
    (hall : ∀ u ∈ handledURLs item, u.response ≠ none) :
    ∃ out, postprocess env item = some out := by
  unfold handledURLs at hall
  unfold postprocess
  cases hred : item.redirection with
  | some red =>
    rw [hred] at hall
    obtain ⟨o, ho⟩ := loop_returns env .URLTypeRedirection [red] hall item
    exact ⟨_, by simp only [ho]; rfl⟩
  | none =>
    rw [hred] at hall
    dsimp only at hall ⊢
    by_cases hc : item.childs.length > 0
    · rw [if_pos hc] at hall ⊢
      obtain ⟨o, ho⟩ := loop_returns env .URLTypeAsset item.childs hall (item.SetChilds [])
      exact ⟨_, by rw [ho]; rfl⟩
    · rw [if_neg hc] at hall ⊢
      obtain ⟨o, ho⟩ := loop_returns env .URLTypeSeed [item.url] hall item
      exact ⟨_, by rw [ho]; rfl⟩

/-- C16, counterexample. With asset capture disabled, `DomainsCrawl` disabled,
`MaxHops = 1` and a URL at hop 2 (hops not equal to `MaxHops`, no children
captured), extraction is short-circuited: no body is buffered and no asset is
extracted. With asset capture disabled, `DomainsCrawl` enabled and a URL at
hop 1 = `MaxHops`, extraction is not short-circuited: the body is buffered
and the asset is extracted. -/
theorem shortCircuit_condition_differs :
    ((fetchedItem 2).childsCaptured = 0 ∧
      (captureEnv true false 1).config.DisableAssetsCapture = true ∧
      (fetchedItem 2).url.Hops ≠ (captureEnv true false 1).config.MaxHops ∧
      (postprocess (captureEnv true false 1) (fetchedItem 2)).map
        (fun r => (r.1.body, r.1.childs)) = some (none, [])) ∧
    ((captureEnv true true 1).config.DisableAssetsCapture = true ∧
      (fetchedItem 1).url.Hops = (captureEnv true true 1).config.MaxHops ∧
      (postprocess (captureEnv true true 1) (fetchedItem 1)).map
        (fun r => (r.1.body, r.1.childs)) =
        some (some [104, 105], [{ Raw := "http://ex/a.png".toList, Hops := 1 }])) := by
  refine ⟨⟨rfl, rfl, by decide, by decide⟩, rfl, rfl, by decide⟩

/-- C16, amended. For a URL with a response attached that `postprocess`
handles past the redirect check: when the item has already captured its
children (`GetChildsCaptured() > 0`), or asset capture is disabled and
`DomainsCrawl` is disabled and `MaxHops ≤` the URL's hops (both as `uint64`),
extraction is short-circuited: the body is discarded, the item is marked
`ItemFailed`, nothing is buffered or extracted and the loop stops. Otherwise
the body is read: a read error stops the loop with nothing buffered; else the
body is buffered on the item and, unless the document fails to parse,
extraction runs and the loop goes on. -/
theorem loop_shortCircuit_cases (env : Env) (T : URLType) (URL : models.URL)
    (URLs : List models.URL) (item : Item) (r : Response) (hr : URL.response = some r)
    (hpast : T ≠ .URLTypeSeed ∨ isStatusCodeRedirect r.StatusCode = false) :
    ((item.childsCaptured > 0 ∨ (env.config.DisableAssetsCapture = true ∧
        env.config.DomainsCrawl = false ∧
        toUint64 env.config.MaxHops ≤ toUint64 URL.Hops)) →
      postprocess.loop env T (URL :: URLs) item =
        some ((item.SetRedirection none).SetStatus .ItemFailed, drained URL :: URLs)) ∧
    (¬ (item.childsCaptured > 0 ∨ (env.config.DisableAssetsCapture = true ∧
        env.config.DomainsCrawl = false ∧
        toUint64 env.config.MaxHops ≤ toUint64 URL.Hops)) →
      (r.Body.readErr = true →
        postprocess.loop env T (URL :: URLs) item =
          some (item.SetRedirection none, drained URL :: URLs)) ∧
      (r.Body.readErr = false →
        (∀ out, postprocess.loop env T (URL :: URLs) item = some out →
          out.1.body ≠ none) ∧
        (env.parseFails r.Body.data = true →
          postprocess.loop env T (URL :: URLs) item =
            some ((item.SetRedirection none).SetBody r.Body.data, drained URL :: URLs)) ∧
        (env.parseFails r.Body.data = false →
          postprocess.loop env T (URL :: URLs) item =
            (postprocess.loop env T URLs
              (extractAssets env r.Body.data URL r.ContentType
                (scrapeBaseTag env r.Body.data
                  ((item.SetRedirection none).SetBody r.Body.data))).1).map
              (fun x => (x.1, drained URL :: x.2))))) := by
  have hstep := loop_past_redirect env T URL URLs item r hr hpast
  refine ⟨fun hc => by rw [hstep, if_pos hc], fun hc => ⟨fun he => ?_, fun he => ⟨?_, ?_, ?_⟩⟩⟩
  · rw [hstep, if_neg hc, if_pos he]
  · intro out ho
    rw [hstep, if_neg hc, if_neg (by simp [he])] at ho
    split at ho
    · cases ho
      simp [Item.SetBody]
    · cases hl : postprocess.loop env T URLs
          (extractAssets env r.Body.data URL r.ContentType
            (scrapeBaseTag env r.Body.data
              ((item.SetRedirection none).SetBody r.Body.data))).1 with
      | none => rw [hl] at ho; cases ho
      | some o2 =>
        rw [hl] at ho
        cases ho
        refine loop_body_some env T URLs _ o2 ?_ hl
        rw [(extractAssets_fields _ _ _ _ _).2, (scrapeBaseTag_fields _ _ _).2.1]
        simp [Item.SetBody]
  · intro hp
    rw [hstep, if_neg hc, if_neg (by simp [he]), if_pos hp]
  · intro hp
    rw [hstep, if_neg hc, if_neg (by simp [he]), if_neg (by simp [hp])]

/-- Witness of `loop_shortCircuit_cases`: asset capture and `DomainsCrawl`
disabled, `MaxHops = 1`, a URL at hop 2. -/
theorem loop_shortCircuit_cases_witness :
    postprocess.loop (captureEnv true false 1) .URLTypeSeed [(fetchedItem 2).url]
        (fetchedItem 2) =
      some (((fetchedItem 2).SetRedirection none).SetStatus .ItemFailed,
        [drained (fetchedItem 2).url]) :=
  (loop_shortCircuit_cases (captureEnv true false 1) .URLTypeSeed (fetchedItem 2).url []
    (fetchedItem 2) { StatusCode := 200, Body := { data := [104, 105] } } rfl
    (Or.inr (by decide))).1 (Or.inr ⟨rfl, rfl, by decide⟩)

/-- C17. An item that enters `postprocess` with a redirection URL attached
or with children discovered prior has no redirection URL attached when
`postprocess` returns, whatever the status codes and `Location` headers of
the responses; and `postprocess` returns when every URL it handles has a
response attached. -/
theorem postprocess_no_redirect_followed (env : Env) (item : Item)
    (h : item.redirection ≠ none ∨ item.childs ≠ []) :
    (∀ out, postprocess env item = some out → out.1.redirection = none) ∧
    ((∀ u ∈ handledURLs item, u.response ≠ none) →
      ∃ out, postprocess env item = some out ∧ out.1.redirection = none) := by
  have key : ∀ out, postprocess env item = some out → out.1.redirection = none := by
    intro out ho
    unfold postprocess at ho
    cases hred : item.redirection with
    | some red =>
      rw [hred] at ho
      dsimp only at ho
      cases hl : postprocess.loop env .URLTypeRedirection [red] item with
      | none => rw [hl] at ho; cases ho
      | some o2 =>
        rw [hl] at ho
        cases ho
        exact loop_redirection_none env _ (by decide) [red] item o2 (Or.inl (by simp)) hl
    | none =>
      rw [hred] at ho
      dsimp only at ho
      have hch : item.childs ≠ [] := by
        rcases h with h | h
        · exact absurd hred h
        · exact h
      have hlen : item.childs.length > 0 := List.length_pos.mpr hch
      rw [if_pos hlen] at ho
      cases hl : postprocess.loop env .URLTypeAsset item.childs (item.SetChilds []) with
      | none => rw [hl] at ho; cases ho
      | some o2 =>
        rw [hl] at ho
        cases ho
        exact loop_redirection_none env _ (by decide) item.childs _ o2 (Or.inl hch) hl
  refine ⟨key, fun hall => ?_⟩
  obtain ⟨out, ho⟩ := postprocess_returns env item hall
  exact ⟨out, ho, key out ho⟩

/-- Witness of `postprocess_no_redirect_followed`: an item whose redirection
URL got a 302 with a `Location` header. -/
theorem postprocess_no_redirect_followed_witness :
    ∃ out, postprocess cutoffEnv redirectionItem = some out ∧ out.1.redirection = none :=
  (postprocess_no_redirect_followed cutoffEnv redirectionItem (Or.inl (by decide))).2
    (by decide)

/-- C19. Whenever `postprocess` returns, the item's status is
`ItemPostProcessed`, on every path; and it returns when every URL it handles
has a response attached. -/
theorem postprocess_status_postProcessed (env : Env) (item : Item) :
    (∀ out, postprocess env item = some out → out.1.status = ItemState.ItemPostProcessed) ∧
    ((∀ u ∈ handledURLs item, u.response ≠ none) →
      ∃ out, postprocess env item = some out ∧
        out.1.status = ItemState.ItemPostProcessed) := by
  have key : ∀ out, postprocess env item = some out →
      out.1.status = ItemState.ItemPostProcessed := by
    intro out ho
    unfold postprocess at ho
    dsimp only at ho
    obtain ⟨o2, _, rfl⟩ := Option.map_eq_some'.mp ho
    rfl
  refine ⟨key, fun hall => ?_⟩
  obtain ⟨out, ho⟩ := postprocess_returns env item hall
  exact ⟨out, ho, key out ho⟩

/-- Witness of `postprocess_status_postProcessed`: the short-circuit path,
which first sets `ItemFailed`. -/
theorem postprocess_status_postProcessed_witness :
    ∃ out, postprocess (captureEnv true false 1) (fetchedItem 2) = some out ∧
      out.1.status = ItemState.ItemPostProcessed :=
  (postprocess_status_postProcessed (captureEnv true false 1) (fetchedItem 2)).2 (by decide)

end postprocessor

namespace crawl

theorem worker_ok (c : Crawl) (item : frontier.Item) (outlinks : List frontier.URL)
    (hlt : item.Hop < c.MaxHops) :
    Worker c (.ok outlinks) item =
      outlinks.map (fun o =>
        (if c.UseKafka && decide (c.KafkaOutlinksTopic.length > 0) then
            Chan.KafkaProducerChannel else Chan.PushChan,
          frontier.NewItem o item
            (if c.DomainsCrawl && strings.Contains item.Host o.Host && item.Hop == 0 then 0
             else item.Hop + 1))) := by
  rw [Worker, if_pos hlt, sendOutlinks_eq_map]

theorem kafka_cond (c : Crawl) :
    (c.UseKafka && decide (c.KafkaOutlinksTopic.length > 0)) = true ↔
      (c.UseKafka = true ∧ c.KafkaOutlinksTopic ≠ []) := by
  simp [List.length_pos]

/-- C21. `Worker` creates no new item when the capture fails or when
`item.Hop ≥ MaxHops`. Otherwise it creates exactly one new item per captured
outlink, in outlink order, each holding its outlink and the item as parent;
each is sent to the Kafka producer channel exactly when `UseKafka` is set and
the outlinks topic is non-empty, and to the frontier otherwise. Every created
item has hop `≤ MaxHops`. -/
theorem worker_sends (c : Crawl) (capture : Except String (List frontier.URL))
    (item : frontier.Item) :
    (∀ e, capture = .error e → Worker c capture item = []) ∧
    (c.MaxHops ≤ item.Hop → Worker c capture item = []) ∧
    (∀ outlinks, capture = .ok outlinks → item.Hop < c.MaxHops →
      (Worker c capture item).length = outlinks.length ∧
      (Worker c capture item).map (fun s => s.2.URL) = outlinks ∧
      (∀ s ∈ Worker c capture item, s.2.ParentItem = some item) ∧
      (∀ s ∈ Worker c capture item,
        (s.1 = Chan.KafkaProducerChannel ↔
          (c.UseKafka = true ∧ c.KafkaOutlinksTopic ≠ [])) ∧
        (s.1 = Chan.PushChan ↔ ¬ (c.UseKafka = true ∧ c.KafkaOutlinksTopic ≠ [])))) ∧
    (∀ s ∈ Worker c capture item, s.2.Hop ≤ c.MaxHops) := by
  refine ⟨?_, ?_, ?_, ?_⟩
  · intro e he
    rw [he]
    rfl
  · intro hge
    cases capture with
    | error e => rfl
    | ok outlinks =>
      rw [Worker, if_neg (by omega)]
  · intro outlinks hc hlt
    rw [hc, worker_ok c item outlinks hlt]
    refine ⟨by simp, ?_, ?_, ?_⟩
    · rw [List.map_map]
      exact (List.map_congr_left (fun _ _ => rfl)).trans (List.map_id _)
    · intro s hs
      obtain ⟨o, _, rfl⟩ := List.mem_map.mp hs
      rfl
    · intro s hs
      obtain ⟨o, _, rfl⟩ := List.mem_map.mp hs
      by_cases hk : c.UseKafka = true ∧ c.KafkaOutlinksTopic ≠ []
      · have hb := (kafka_cond c).mpr hk
        simp only [hb, if_true]
        simp [hk]
      · have hb : (c.UseKafka && decide (c.KafkaOutlinksTopic.length > 0)) = false := by
          cases hx : (c.UseKafka && decide (c.KafkaOutlinksTopic.length > 0)) with
          | false => rfl
          | true => exact absurd ((kafka_cond c).mp hx) hk
        simp only [hb]
        simpa using hk
  · intro s hs
    by_cases hlt : item.Hop < c.MaxHops
    · obtain ⟨o, ho⟩ := mem_worker c capture item s hs
      rw [ho]
      show (if c.DomainsCrawl && strings.Contains item.Host o.Host && item.Hop == 0 then 0
        else item.Hop + 1) ≤ c.MaxHops
      split <;> omega
    · exfalso
      cases capture with
      | error e => simp [Worker] at hs
      | ok outlinks =>
        rw [Worker, if_neg hlt] at hs
        simp at hs

/-- Witness of `worker_sends`: with `UseKafka` set and the topic `outlinks`,
the item `ex.com` at hop 0 and two captured outlinks, `Worker` sends two new
items, in order, to the Kafka producer channel. -/
theorem worker_sends_witness :
    (Worker kafkaCrawl (.ok [apiOutlink, exItem.URL]) exItem).length = 2 ∧
      (Worker kafkaCrawl (.ok [apiOutlink, exItem.URL]) exItem).map (fun s => s.2.URL) =
        [apiOutlink, exItem.URL] ∧
      (Worker kafkaCrawl (.ok [apiOutlink, exItem.URL]) exItem).map (fun s => s.1) =
        [Chan.KafkaProducerChannel, Chan.KafkaProducerChannel] ∧
      (Worker kafkaCrawl (.ok [apiOutlink, exItem.URL]) exItem).map (fun s => s.2.Hop) =
        [1, 1] :=
  ⟨((worker_sends kafkaCrawl (.ok [apiOutlink, exItem.URL]) exItem).2.2.1
      [apiOutlink, exItem.URL] rfl (by decide)).1,
    ((worker_sends kafkaCrawl (.ok [apiOutlink, exItem.URL]) exItem).2.2.1
      [apiOutlink, exItem.URL] rfl (by decide)).2.1, by decide, by decide⟩

end crawl
